import Mathlib

/-!
# Verification of the fire-in-paradise grid simulator

A shallow embedding of the core of the `fire-in-paradise` repository
(`ship.py`, `cell.py`, `bot.py`, `environment.py`, `botcontroller.py`),
together with proofs and refutations of the specification claims.

Conventions of the embedding:
* a grid cell is a pair of booleans (`isOpen`, `onFire`), mirroring `cell.py`;
* a ship is its `dimension` together with the row-major 2D list of cells,
  mirroring `ship.py` (`self.grid`);
* positions are integer pairs `(row, col)` since the Python code freely forms
  `row - 1` etc. before bounds checking; every real access in the code is
  guarded by `cell_in_bounds`, so the embedding's out-of-range reads (which
  return a closed, unburnt default cell) are never exercised on the guarded
  paths;
* Python's `random.random()` draws are modelled by explicit rational-valued
  draw functions supplied as arguments (each call of a stochastic routine
  consumes the draw for the cell it examines);
* Python numbers that only ever hold exact values are modelled by `ℚ` / `ℕ`;
  `float('inf')` entries are modelled by `Option ℕ` (`none` = infinity) or
  `WithTop ℕ` where an order is needed.
-/

namespace FireParadise

/-- A grid cell, as in `cell.py`: the `open` and `on_fire` attributes.
(`open` is a Lean keyword, so the field is called `isOpen`.) -/
structure Cell where
  isOpen : Bool
  onFire : Bool
deriving DecidableEq, Repr

/-- The default cell used for out-of-range reads: closed, not burning. -/
def defaultCell : Cell := ⟨false, false⟩

/-- A position `(row, col)`. -/
abbrev Pos := ℤ × ℤ

/-- The ship: `dimension` and the row-major grid of cells (`ship.py`). -/
structure Ship where
  dimension : ℕ
  grid : List (List Cell)
deriving DecidableEq, Repr

namespace Ship

/-- `Ship.cell_in_bounds` from `ship.py`:
`0 <= row < self.dimension and 0 <= col < self.dimension`. -/
def cell_in_bounds (s : Ship) (r c : ℤ) : Bool :=
  (0 ≤ r && r < (s.dimension : ℤ)) && (0 ≤ c && c < (s.dimension : ℤ))

/-- Whether `(r, c)` indexes an actually stored cell of the grid lists. -/
def inGrid (s : Ship) (p : Pos) : Bool :=
  0 ≤ p.1 && 0 ≤ p.2 && decide (p.1.toNat < s.grid.length) &&
    decide (p.2.toNat < (s.grid.getD p.1.toNat []).length)

/-- Read the cell stored at `(r, c)` (the `self.grid[row][col]` access of
`Ship.get_cell`); reads outside the stored grid give `defaultCell`. -/
def cellAt (s : Ship) (p : Pos) : Cell :=
  if 0 ≤ p.1 ∧ 0 ≤ p.2 then (s.grid.getD p.1.toNat []).getD p.2.toNat defaultCell
  else defaultCell

/-- The neighbor positions of a cell, in the order `set_cell_neighbors`
creates them: `(-1,0), (1,0), (0,-1), (0,1)`, keeping only in-bounds ones. -/
def neighborsPos (s : Ship) (p : Pos) : List Pos :=
  [(p.1 - 1, p.2), (p.1 + 1, p.2), (p.1, p.2 - 1), (p.1, p.2 + 1)].filter
    (fun q => s.cell_in_bounds q.1 q.2)

/-- `Cell.count_burning_neighbors` from `cell.py`: the number of neighbors
whose `on_fire` attribute is set. -/
def count_burning_neighbors (s : Ship) (p : Pos) : ℕ :=
  ((s.neighborsPos p).filter (fun q => (s.cellAt q).onFire)).length

/-- `Ship.get_open_cells` from `ship.py`: the open cells in row-major order,
as positions. -/
def get_open_cells (s : Ship) : List Pos :=
  s.grid.enum.flatMap (fun rc =>
    rc.2.enum.filterMap (fun cc =>
      if cc.2.isOpen then some ((rc.1 : ℤ), (cc.1 : ℤ)) else none))

/-- `Ship.get_on_fire_cells` from `ship.py`: the open cells that are on fire,
in row-major order. -/
def get_on_fire_cells (s : Ship) : List Pos :=
  (s.get_open_cells).filter (fun p => (s.cellAt p).onFire)

/-- Rebuild the grid, applying `f` to each cell together with its position. -/
def mapCells (s : Ship) (f : Pos → Cell → Cell) : Ship :=
  { s with grid := s.grid.enum.map (fun rc =>
      rc.2.enum.map (fun cc => f ((rc.1 : ℤ), (cc.1 : ℤ)) cc.2)) }

end Ship

/-! ### Basic lemmas about the grid representation -/

theorem getD_of_lt {α : Type} (l : List α) (n : ℕ) (d : α) (h : n < l.length) :
    l.getD n d = l[n] := by
  rw [List.getD_eq_getElem?_getD, List.getElem?_eq_getElem h]
  rfl

theorem getD_of_le {α : Type} (l : List α) (n : ℕ) (d : α) (h : l.length ≤ n) :
    l.getD n d = d := by
  rw [List.getD_eq_getElem?_getD, List.getElem?_eq_none h]
  rfl

theorem cellAt_natCast (s : Ship) (r c : ℕ) (hr : r < s.grid.length)
    (hc : c < (s.grid[r]).length) :
    s.cellAt ((r : ℤ), (c : ℤ)) = s.grid[r][c] := by
  simp only [Ship.cellAt, Int.toNat_ofNat]
  rw [if_pos (by constructor <;> simp)]
  rw [getD_of_lt _ _ _ hr, getD_of_lt _ _ _ hc]

theorem mem_get_open_cells_iff (s : Ship) (p : Pos) :
    p ∈ s.get_open_cells ↔ s.inGrid p = true ∧ (s.cellAt p).isOpen = true := by
  constructor
  · intro hp
    simp only [Ship.get_open_cells, List.mem_flatMap, List.mem_filterMap] at hp
    obtain ⟨rc, hrc, cc, hcc, hif⟩ := hp
    have hrow := List.mem_enum_iff_getElem?.mp hrc
    have hcell := List.mem_enum_iff_getElem?.mp hcc
    obtain ⟨hr, hrowval⟩ := List.getElem?_eq_some.mp hrow
    obtain ⟨hc, hcellval⟩ := List.getElem?_eq_some.mp hcell
    by_cases hopen : cc.2.isOpen
    · simp only [hopen, if_true, Option.some.injEq] at hif
      subst hif
      have hc' : cc.1 < (s.grid[rc.1]).length := by rw [hrowval]; exact hc
      have hcell2 : s.cellAt ((rc.1 : ℤ), (cc.1 : ℤ)) = cc.2 := by
        rw [cellAt_natCast s rc.1 cc.1 hr hc']
        simp only [hrowval]
        exact hcellval
      constructor
      · simp only [Ship.inGrid, Bool.and_eq_true, decide_eq_true_eq]
        refine ⟨⟨⟨by simp, by simp⟩, by simpa using hr⟩, ?_⟩
        rw [show (((rc.1 : ℤ), (cc.1 : ℤ)) : Pos).1.toNat = rc.1 by simp,
          show (((rc.1 : ℤ), (cc.1 : ℤ)) : Pos).2.toNat = cc.1 by simp,
          getD_of_lt _ _ _ hr]
        exact hc'
      · rw [hcell2]; exact hopen
    · simp [hopen] at hif
  · rintro ⟨hin, hopen⟩
    simp only [Ship.inGrid, Bool.and_eq_true, decide_eq_true_eq] at hin
    obtain ⟨⟨⟨h1, h2⟩, hr⟩, hc⟩ := hin
    rw [getD_of_lt _ _ _ hr] at hc
    simp only [Ship.get_open_cells, List.mem_flatMap, List.mem_filterMap]
    have hp : p = ((p.1.toNat : ℤ), (p.2.toNat : ℤ)) :=
      Prod.ext (by simp [Int.toNat_of_nonneg h1]) (by simp [Int.toNat_of_nonneg h2])
    have hcell := cellAt_natCast s p.1.toNat p.2.toNat hr hc
    rw [← hp] at hcell
    rw [hcell] at hopen
    refine ⟨(p.1.toNat, s.grid[p.1.toNat]),
      List.mem_enum_iff_getElem?.mpr (by simp [List.getElem?_eq_getElem hr]),
      (p.2.toNat, s.grid[p.1.toNat][p.2.toNat]),
      List.mem_enum_iff_getElem?.mpr (by simp [List.getElem?_eq_getElem hc]), ?_⟩
    simp only [hopen, if_true, Option.some.injEq]
    exact hp.symm

theorem cellAt_mapCells (s : Ship) (f : Pos → Cell → Cell) (p : Pos) :
    (s.mapCells f).cellAt p =
      if s.inGrid p then f p (s.cellAt p) else s.cellAt p := by
  have hmaplen : ((s.mapCells f).grid).length = s.grid.length := by
    simp [Ship.mapCells]
  by_cases h1 : 0 ≤ p.1
  · by_cases h2 : 0 ≤ p.2
    · by_cases hr : p.1.toNat < s.grid.length
      · have hmgd : ((s.mapCells f).grid).getD p.1.toNat [] =
            (s.grid[p.1.toNat]).enum.map
              (fun cc => f ((p.1.toNat : ℤ), (cc.1 : ℤ)) cc.2) := by
          have hlen : p.1.toNat < ((s.mapCells f).grid).length := by omega
          rw [getD_of_lt _ _ _ hlen]
          simp [Ship.mapCells, List.getElem_enum]
        by_cases hc : p.2.toNat < (s.grid[p.1.toNat]).length
        · have hin : s.inGrid p = true := by
            simp only [Ship.inGrid, Bool.and_eq_true, decide_eq_true_eq]
            exact ⟨⟨⟨h1, h2⟩, hr⟩, by rw [getD_of_lt _ _ _ hr]; exact hc⟩
          have hp : p = ((p.1.toNat : ℤ), (p.2.toNat : ℤ)) :=
            Prod.ext (by simp [Int.toNat_of_nonneg h1]) (by simp [Int.toNat_of_nonneg h2])
          rw [if_pos hin]
          have hcellp := cellAt_natCast s p.1.toNat p.2.toNat hr hc
          rw [← hp] at hcellp
          have hlen2 : p.2.toNat < ((s.grid[p.1.toNat]).enum.map
              (fun cc => f ((p.1.toNat : ℤ), (cc.1 : ℤ)) cc.2)).length := by simpa using hc
          have : (s.mapCells f).cellAt p = ((s.grid[p.1.toNat]).enum.map
              (fun cc => f ((p.1.toNat : ℤ), (cc.1 : ℤ)) cc.2))[p.2.toNat] := by
            simp only [Ship.cellAt, if_pos (And.intro h1 h2), hmgd]
            exact getD_of_lt _ _ _ hlen2
          rw [this]
          simp only [List.getElem_map, List.getElem_enum]
          rw [hcellp, ← hp]
        · have hin : s.inGrid p = false := by
            simp only [Ship.inGrid, Bool.and_eq_false_iff]
            right
            rw [getD_of_lt _ _ _ hr]
            simpa using hc
          rw [if_neg (by simp [hin])]
          have hlenm : ((s.grid[p.1.toNat]).enum.map
              (fun cc => f ((p.1.toNat : ℤ), (cc.1 : ℤ)) cc.2)).length ≤ p.2.toNat := by
            rw [List.length_map, List.enum_length]
            omega
          have e1 : (s.mapCells f).cellAt p = defaultCell := by
            unfold Ship.cellAt
            rw [if_pos (And.intro h1 h2), hmgd, getD_of_le _ _ _ hlenm]
          have e2 : s.cellAt p = defaultCell := by
            unfold Ship.cellAt
            rw [if_pos (And.intro h1 h2), getD_of_lt _ _ _ hr,
              getD_of_le _ _ _ (le_of_not_lt hc)]
          rw [e1, e2]
      · have hin : s.inGrid p = false := by
          simp only [Ship.inGrid, Bool.and_eq_false_iff]
          left; right; simpa using hr
        rw [if_neg (by simp [hin])]
        have hgdn : s.grid.getD p.1.toNat [] = [] := getD_of_le _ _ _ (by omega)
        have hgdn2 : ((s.mapCells f).grid).getD p.1.toNat [] = [] :=
          getD_of_le _ _ _ (by omega)
        unfold Ship.cellAt
        rw [if_pos (And.intro h1 h2), if_pos (And.intro h1 h2), hgdn, hgdn2]
    · have hin : s.inGrid p = false := by
        simp only [Ship.inGrid, Bool.and_eq_false_iff]
        left; left; right; simpa using h2
      rw [if_neg (by simp [hin])]
      simp [Ship.cellAt, h2]
  · have hin : s.inGrid p = false := by
      simp only [Ship.inGrid, Bool.and_eq_false_iff]
      left; left; left; simpa using h1
    rw [if_neg (by simp [hin])]
    simp [Ship.cellAt, h1]

/-! ## The fire-spread transition (`Environment.update_fire`) -/

/-- The ignition probability `1 - (1 - q) ** K` of `Environment.update_fire`. -/
def igniteProb (q : ℚ) (k : ℕ) : ℚ := 1 - (1 - q) ^ k

/-- The list of cells `Environment.update_fire` collects in `new_fire_cells`:
open cells that are not yet burning, have a positive number of burning
neighbors (counted in the state at the start of the call), and whose uniform
draw falls below the ignition probability. -/
def newFireCells (q : ℚ) (s : Ship) (draw : Pos → ℚ) : List Pos :=
  s.get_open_cells.filter (fun p =>
    !(s.cellAt p).onFire &&
      decide (0 < s.count_burning_neighbors p) &&
      decide (draw p < igniteProb q (s.count_burning_neighbors p)))

/-- `Environment.update_fire`: collect the candidate ignitions from the
snapshot at the start of the call, then ignite them all simultaneously. -/
def update_fire (q : ℚ) (s : Ship) (draw : Pos → ℚ) : Ship :=
  let newFire := newFireCells q s draw
  s.mapCells (fun p cell => if p ∈ newFire then { cell with onFire := true } else cell)

theorem mem_newFireCells_iff (q : ℚ) (s : Ship) (draw : Pos → ℚ) (p : Pos) :
    p ∈ newFireCells q s draw ↔
      s.inGrid p = true ∧ (s.cellAt p).isOpen = true ∧ (s.cellAt p).onFire = false ∧
        0 < s.count_burning_neighbors p ∧
        draw p < igniteProb q (s.count_burning_neighbors p) := by
  simp only [newFireCells, List.mem_filter, mem_get_open_cells_iff,
    Bool.and_eq_true, decide_eq_true_eq, Bool.not_eq_true']
  tauto

theorem update_fire_cellAt (q : ℚ) (s : Ship) (draw : Pos → ℚ) (p : Pos) :
    (update_fire q s draw).cellAt p =
      (if p ∈ newFireCells q s draw then
        { s.cellAt p with onFire := true } else s.cellAt p) := by
  unfold update_fire
  rw [cellAt_mapCells]
  by_cases hin : s.inGrid p = true
  · rw [if_pos hin]
  · have hnot : p ∉ newFireCells q s draw := by
      intro hmem
      exact hin ((mem_newFireCells_iff q s draw p).mp hmem).1
    rw [if_neg (by simpa using hin), if_neg hnot]

/-- **Claim C1.** One call to `update_fire` ignites exactly the open,
not-yet-burning cells whose burning-neighbor count `k`, measured in the state
at the start of the call, is positive and whose uniform draw falls below
`1 - (1-q)^k`; the counts are taken in the snapshot (cells ignited during the
call never count as burning neighbors for other cells in the same call); if
every open cell has zero burning neighbors, or `q = 0` (with draws in `[0,1)`),
no cell ignites. -/
theorem claim_C1_update_fire_exact (q : ℚ) (s : Ship) (draw : Pos → ℚ) :
    (∀ p : Pos, ((update_fire q s draw).cellAt p).onFire = true ↔
      ((s.cellAt p).onFire = true ∨
        (s.inGrid p = true ∧ (s.cellAt p).isOpen = true ∧
          (s.cellAt p).onFire = false ∧ 0 < s.count_burning_neighbors p ∧
          draw p < igniteProb q (s.count_burning_neighbors p)))) ∧
    ((∀ p ∈ s.get_open_cells, s.count_burning_neighbors p = 0) →
      ∀ p : Pos, ((update_fire q s draw).cellAt p).onFire = (s.cellAt p).onFire) ∧
    (q = 0 → (∀ p : Pos, 0 ≤ draw p) →
      ∀ p : Pos, ((update_fire q s draw).cellAt p).onFire = (s.cellAt p).onFire) := by
  have key : ∀ p : Pos, ((update_fire q s draw).cellAt p).onFire = true ↔
      ((s.cellAt p).onFire = true ∨
        (s.inGrid p = true ∧ (s.cellAt p).isOpen = true ∧
          (s.cellAt p).onFire = false ∧ 0 < s.count_burning_neighbors p ∧
          draw p < igniteProb q (s.count_burning_neighbors p))) := by
    intro p
    rw [update_fire_cellAt]
    by_cases hmem : p ∈ newFireCells q s draw
    · rw [if_pos hmem]
      have := (mem_newFireCells_iff q s draw p).mp hmem
      simp only [true_iff]
      right
      exact this
    · rw [if_neg hmem]
      rw [mem_newFireCells_iff] at hmem
      constructor
      · intro h; exact Or.inl h
      · rintro (h | h)
        · exact h
        · exact absurd h hmem
  refine ⟨key, ?_, ?_⟩
  · intro hzero p
    by_cases hfire : (s.cellAt p).onFire = true
    · rw [hfire]
      exact (key p).mpr (Or.inl hfire)
    · have hfire' : (s.cellAt p).onFire = false := by
        cases h : (s.cellAt p).onFire
        · rfl
        · exact absurd h hfire
      rw [hfire']
      by_contra hne
      have htrue : ((update_fire q s draw).cellAt p).onFire = true := by
        cases h : ((update_fire q s draw).cellAt p).onFire
        · exact absurd h hne
        · rfl
      rcases (key p).mp htrue with h | h
      · exact hfire h
      · have hopen : p ∈ s.get_open_cells := (mem_get_open_cells_iff s p).mpr ⟨h.1, h.2.1⟩
        have := hzero p hopen
        omega
  · intro hq hdraw p
    by_cases hfire : (s.cellAt p).onFire = true
    · rw [hfire]
      rw [(key p).mpr (Or.inl hfire)]
    · have hfire' : (s.cellAt p).onFire = false := by
        cases h : (s.cellAt p).onFire
        · rfl
        · exact absurd h hfire
      rw [hfire']
      by_contra hne
      have htrue : ((update_fire q s draw).cellAt p).onFire = true := by
        cases h : ((update_fire q s draw).cellAt p).onFire
        · exact absurd h hne
        · rfl
      rcases (key p).mp htrue with h | h
      · exact hfire h
      · have hlt := h.2.2.2.2
        rw [hq] at hlt
        simp only [igniteProb, sub_zero, one_pow, sub_self] at hlt
        exact absurd hlt (not_lt.mpr (hdraw p))

/-- A tiny concrete ship used by witnesses: a 2×2 grid whose first row is
open with the corner cell burning. -/
def shipW : Ship :=
  ⟨2, [[⟨true, true⟩, ⟨true, false⟩], [⟨false, false⟩, ⟨false, false⟩]]⟩

theorem claim_C1_update_fire_exact_witness :
    ((update_fire 0 shipW (fun _ => 0)).cellAt ((0 : ℤ), (1 : ℤ))).onFire =
      (shipW.cellAt ((0 : ℤ), (1 : ℤ))).onFire :=
  (claim_C1_update_fire_exact 0 shipW (fun _ => 0)).2.2 rfl
    (fun _ => le_refl 0) ((0 : ℤ), (1 : ℤ))

/-! ## The agent (`bot.py`) -/

/-- The target coordinate `Bot.move` computes from a direction string:
`new_row, new_col` after the `if/elif` chain, or `None` for the `else: return`
branch (unrecognized direction). -/
def directionTarget (b : Pos) (direction : String) : Option Pos :=
  if direction = "up" then some (b.1 - 1, b.2)
  else if direction = "down" then some (b.1 + 1, b.2)
  else if direction = "left" then some (b.1, b.2 - 1)
  else if direction = "right" then some (b.1, b.2 + 1)
  else none

/-- `Bot.move` from `bot.py`. The method could in principle mutate the ship
through `self.ship`, so the embedding returns the `(ship, position)` pair;
the body only ever reassigns `self.row, self.col`. -/
def Bot.move (ship : Ship) (b : Pos) (direction : String) : Ship × Pos :=
  match directionTarget b direction with
  | none => (ship, b)
  | some t =>
    if ship.cell_in_bounds t.1 t.2 && (ship.cellAt t).isOpen then (ship, t)
    else (ship, b)

/-- **Claim C10.** `Bot.move` moves the bot to the adjacent coordinate exactly
when the direction is one of the four recognized strings and the target is in
bounds and open; in every other case the position is unchanged; the ship state
is never modified (and the embedding is total, i.e. no exception paths). -/
theorem claim_C10_bot_move (ship : Ship) (b : Pos) (direction : String) :
    (Bot.move ship b direction).1 = ship ∧
    (∀ t : Pos, directionTarget b direction = some t →
      (ship.cell_in_bounds t.1 t.2 && (ship.cellAt t).isOpen) = true →
      (Bot.move ship b direction).2 = t) ∧
    (∀ t : Pos, directionTarget b direction = some t →
      (ship.cell_in_bounds t.1 t.2 && (ship.cellAt t).isOpen) = false →
      (Bot.move ship b direction).2 = b) ∧
    (directionTarget b direction = none → (Bot.move ship b direction).2 = b) := by
  refine ⟨?_, ?_, ?_, ?_⟩
  · unfold Bot.move
    cases h : directionTarget b direction with
    | none => rfl
    | some t =>
      by_cases hok : (ship.cell_in_bounds t.1 t.2 && (ship.cellAt t).isOpen) = true
      · simp [hok]
      · simp only [Bool.not_eq_true] at hok
        simp [hok]
  · intro t ht hok
    unfold Bot.move
    rw [ht]
    simp [hok]
  · intro t ht hok
    unfold Bot.move
    rw [ht]
    simp [hok]
  · intro ht
    unfold Bot.move
    rw [ht]

theorem claim_C10_bot_move_witness :
    (Bot.move shipW ((0 : ℤ), (1 : ℤ)) "left").2 = ((0 : ℤ), (0 : ℤ)) :=
  (claim_C10_bot_move shipW ((0 : ℤ), (1 : ℤ)) "left").2.1 ((0 : ℤ), (0 : ℤ))
    (by decide) (by decide)

/-! ## The environment timestep (`Environment.tick`) -/

/-- The environment state used by `Environment.tick` in `environment.py`:
the ship, the flammability parameter, the bot position, the button position
and the precomputed BFS path (`self.path`) that `tick` consumes. -/
structure EnvState where
  ship : Ship
  q : ℚ
  botPos : Pos
  buttonPos : Pos
  path : List Pos
deriving DecidableEq, Repr

/-- Extinguish every burning cell (the `for cell in get_on_fire_cells():
cell.extinguish()` loop run on the button-press branch). -/
def extinguishAll (s : Ship) : Ship :=
  s.mapCells (fun _ cell => { cell with onFire := false })

/-- `Environment.tick`: pop the next precomputed path cell and move the bot
there (the source calls `self.bot.move(next_pos[0], next_pos[1])`, i.e. the
bot's coordinates become `next_pos`), then `update_fire`, then test the
bot's cell for fire (`"failure"`), then for the button (`"success"`, with all
fire extinguished), else `"ongoing"`. With an empty `self.path` the source
reads the unassigned local `next_pos` (a `NameError`), modelled as `none`. -/
def Environment.tick (st : EnvState) (draw : Pos → ℚ) :
    Option (EnvState × String) :=
  match st.path with
  | [] => none
  | next_pos :: rest =>
    let botPos' := next_pos
    let ship' := update_fire st.q st.ship draw
    if (ship'.cellAt botPos').onFire then
      some ({ st with ship := ship', botPos := botPos', path := rest }, "failure")
    else if botPos' = st.buttonPos then
      some ({ st with ship := extinguishAll ship', botPos := botPos', path := rest },
        "success")
    else
      some ({ st with ship := ship', botPos := botPos', path := rest }, "ongoing")

/-- The concrete counterexample state for claim C5: the bot's next path cell
is the button, and the fire (q = 1, draws 0) spreads onto the button during
the same tick. -/
def envC5 : EnvState :=
  { ship := ⟨2, [[⟨true, false⟩, ⟨true, false⟩], [⟨true, true⟩, ⟨false, false⟩]]⟩
    q := 1
    botPos := ((0 : ℤ), (1 : ℤ))
    buttonPos := ((0 : ℤ), (0 : ℤ))
    path := [((0 : ℤ), (0 : ℤ))] }

theorem igniteProb_one_pos (k : ℕ) (hk : 0 < k) : (0 : ℚ) < igniteProb 1 k := by
  unfold igniteProb
  rw [sub_self, zero_pow (by omega)]
  norm_num

/-- **Claim C5, counterexample.** The claimed ordering checks the goal before
advancing the hazard, hence would return `"success"` whenever the agent's
cell is the goal; the code advances the hazard first and checks burning
before the goal, so here `tick` returns `"failure"` even though the agent's
cell is the goal after the move. -/
theorem claim_C5_counterexample :
    ∃ st' : EnvState, Environment.tick envC5 (fun _ => 0) = some (st', "failure") ∧
      st'.botPos = st'.buttonPos := by
  have hmem : ((0 : ℤ), (0 : ℤ)) ∈ newFireCells 1 envC5.ship (fun _ => 0) := by
    rw [mem_newFireCells_iff]
    refine ⟨by decide, by decide, by decide, by decide, ?_⟩
    have hcount : envC5.ship.count_burning_neighbors ((0 : ℤ), (0 : ℤ)) = 1 := by decide
    rw [hcount]
    exact igniteProb_one_pos 1 (by omega)
  have hfire : ((update_fire 1 envC5.ship (fun _ => 0)).cellAt
      ((0 : ℤ), (0 : ℤ))).onFire = true := by
    rw [update_fire_cellAt, if_pos hmem]
  refine ⟨⟨update_fire 1 envC5.ship (fun _ => 0), envC5.q, ((0 : ℤ), (0 : ℤ)),
    envC5.buttonPos, []⟩, ?_, by decide⟩
  unfold Environment.tick
  have hpath : envC5.path = [((0 : ℤ), (0 : ℤ))] := rfl
  rw [hpath, show envC5.q = (1 : ℚ) from rfl]
  simp only [hfire]
  rfl

/-- **Claim C5, amended.** Within a tick the code's order is: apply the
agent's move (to the next precomputed path cell), then advance the hazard one
step, then return `"failure"` if the agent's cell is burning (even when it is
also the goal), else `"success"` if the agent's cell is the button (with all
burning cells extinguished), else `"ongoing"`; on an empty precomputed path
`tick` does not return a status. -/
theorem claim_C5_tick_order (st : EnvState) (draw : Pos → ℚ) :
    (st.path = [] → Environment.tick st draw = none) ∧
    (∀ next_pos rest, st.path = next_pos :: rest →
      ∃ st' : EnvState, ∃ status : String,
        Environment.tick st draw = some (st', status) ∧
        st'.botPos = next_pos ∧
        st'.path = rest ∧
        st'.buttonPos = st.buttonPos ∧
        (status = "failure" ↔
          ((update_fire st.q st.ship draw).cellAt next_pos).onFire = true) ∧
        (status = "success" ↔
          (((update_fire st.q st.ship draw).cellAt next_pos).onFire = false ∧
            next_pos = st.buttonPos)) ∧
        (status = "failure" ∨ status = "success" ∨ status = "ongoing") ∧
        (status = "success" → st'.ship = extinguishAll (update_fire st.q st.ship draw)) ∧
        (status ≠ "success" → st'.ship = update_fire st.q st.ship draw)) := by
  constructor
  · intro hpath
    unfold Environment.tick
    rw [hpath]
  · intro next_pos rest hpath
    unfold Environment.tick
    rw [hpath]
    by_cases hfire : ((update_fire st.q st.ship draw).cellAt next_pos).onFire = true
    · refine ⟨⟨update_fire st.q st.ship draw, st.q, next_pos, st.buttonPos, rest⟩,
        "failure", by simp [hfire], rfl, rfl, rfl, ?_, ?_, ?_, ?_, ?_⟩
      · simp [hfire]
      · constructor
        · intro h; exact absurd h (by decide)
        · rintro ⟨h, -⟩; rw [hfire] at h; exact absurd h (by decide)
      · left; rfl
      · intro h; exact absurd h (by decide)
      · intro h; rfl
    · have hfire' : ((update_fire st.q st.ship draw).cellAt next_pos).onFire = false := by
        cases h : ((update_fire st.q st.ship draw).cellAt next_pos).onFire
        · rfl
        · exact absurd h hfire
      by_cases hbtn : next_pos = st.buttonPos
      · subst hbtn
        refine ⟨⟨extinguishAll (update_fire st.q st.ship draw), st.q, st.buttonPos,
          st.buttonPos, rest⟩, "success",
          by simp [hfire'], rfl, rfl, rfl, ?_, ?_, ?_, ?_, ?_⟩
        · constructor
          · intro h; exact absurd h (by decide)
          · intro h; rw [hfire'] at h; exact absurd h (by decide)
        · constructor
          · intro h; exact ⟨hfire', rfl⟩
          · intro h; rfl
        · right; left; rfl
        · intro h; rfl
        · intro h; exact absurd rfl h
      · refine ⟨⟨update_fire st.q st.ship draw, st.q, next_pos, st.buttonPos, rest⟩,
          "ongoing",
          by simp [hfire, hbtn], rfl, rfl, rfl, ?_, ?_, ?_, ?_, ?_⟩
        · constructor
          · intro h; exact absurd h (by decide)
          · intro h; rw [hfire'] at h; exact absurd h (by decide)
        · constructor
          · intro h; exact absurd h (by decide)
          · rintro ⟨-, h⟩; exact absurd h hbtn
        · right; right; rfl
        · intro h; exact absurd h (by decide)
        · intro h; rfl

theorem claim_C5_tick_order_witness :
    ∃ st' : EnvState, ∃ status : String,
      Environment.tick envC5 (fun _ => 0) = some (st', status) ∧
      st'.botPos = ((0 : ℤ), (0 : ℤ)) ∧
      st'.path = ([] : List Pos) ∧
      st'.buttonPos = envC5.buttonPos ∧
      (status = "failure" ↔
        ((update_fire envC5.q envC5.ship (fun _ => 0)).cellAt
          ((0 : ℤ), (0 : ℤ))).onFire = true) ∧
      (status = "success" ↔
        (((update_fire envC5.q envC5.ship (fun _ => 0)).cellAt
          ((0 : ℤ), (0 : ℤ))).onFire = false ∧
          ((0 : ℤ), (0 : ℤ)) = envC5.buttonPos)) ∧
      (status = "failure" ∨ status = "success" ∨ status = "ongoing") ∧
      (status = "success" →
        st'.ship = extinguishAll (update_fire envC5.q envC5.ship (fun _ => 0))) ∧
      (status ≠ "success" →
        st'.ship = update_fire envC5.q envC5.ship (fun _ => 0)) :=
  (claim_C5_tick_order envC5 (fun _ => 0)).2 ((0 : ℤ), (0 : ℤ)) [] rfl

/-! ## Fire arrival-time forecasts
(`BotController.predict_fire_spread_risk` and `Environment.predict_fire_spread`) -/

/-- Read entry `[p.1][p.2]` of an arrival-time matrix (`none` = `float('inf')`). -/
def matGet (m : List (List (Option ℕ))) (p : Pos) : Option ℕ :=
  (m.getD p.1.toNat []).getD p.2.toNat none

/-- Write entry `[p.1][p.2]` of an arrival-time matrix. -/
def matSet (m : List (List (Option ℕ))) (p : Pos) (v : ℕ) : List (List (Option ℕ)) :=
  m.enum.map (fun rc =>
    if (rc.1 : ℤ) = p.1 then
      rc.2.enum.map (fun cc => if (cc.1 : ℤ) = p.2 then some v else cc.2)
    else rc.2)

/-- The BFS loop of `BotController.predict_fire_spread_risk`: pop `(x, y, t)`
from the left of the deque; for each neighbor that is **open** and still at
infinity, record `t + 1` and push it on the right. -/
def bfsRiskLoop (s : Ship) : ℕ → List (Pos × ℕ) → List (List (Option ℕ)) →
    List (List (Option ℕ))
  | 0, _, m => m
  | _ + 1, [], m => m
  | fuel + 1, (x, t) :: queue, m =>
    let step := (s.neighborsPos x).foldl
      (fun (acc : List (List (Option ℕ)) × List (Pos × ℕ)) n =>
        if (s.cellAt n).isOpen && (matGet acc.1 n).isNone then
          (matSet acc.1 n (t + 1), acc.2 ++ [(n, t + 1)])
        else acc) (m, queue)
    bfsRiskLoop s fuel step.2 step.1

/-- The BFS loop of `Environment.predict_fire_spread`: identical except for
its neighbor test, which is `not self.ship.get_cell(nx,ny).is_open()` — it
propagates through **closed** cells. -/
def bfsEnvLoop (s : Ship) : ℕ → List (Pos × ℕ) → List (List (Option ℕ)) →
    List (List (Option ℕ))
  | 0, _, m => m
  | _ + 1, [], m => m
  | fuel + 1, (x, t) :: queue, m =>
    let step := (s.neighborsPos x).foldl
      (fun (acc : List (List (Option ℕ)) × List (Pos × ℕ)) n =>
        if !(s.cellAt n).isOpen && (matGet acc.1 n).isNone then
          (matSet acc.1 n (t + 1), acc.2 ++ [(n, t + 1)])
        else acc) (m, queue)
    bfsEnvLoop s fuel step.2 step.1

/-- Seed the matrix and deque with the fire start cells at time `0`. -/
def seedFire (s : Ship) (fire_starts : List Pos) :
    List (List (Option ℕ)) × List (Pos × ℕ) :=
  fire_starts.foldl (fun acc p => (matSet acc.1 p 0, acc.2 ++ [(p, 0)]))
    (List.replicate s.dimension (List.replicate s.dimension none), [])

/-- `BotController.predict_fire_spread_risk`: multi-source BFS over open
cells. The fuel bound exceeds the number of possible enqueues (each cell is
enqueued at most once after seeding). -/
def predict_fire_spread_risk (s : Ship) (fire_starts : List Pos) :
    List (List (Option ℕ)) :=
  let seeded := seedFire s fire_starts
  bfsRiskLoop s (fire_starts.length + s.dimension * s.dimension + 1) seeded.2 seeded.1

/-- `Environment.predict_fire_spread`: the same BFS but with the inverted
openness test of the source (`not ... is_open()`). The matplotlib display of
the source is a side effect outside the embedding. -/
def Environment.predict_fire_spread (s : Ship) (fire_starts : List Pos) :
    List (List (Option ℕ)) :=
  let seeded := seedFire s fire_starts
  bfsEnvLoop s (fire_starts.length + s.dimension * s.dimension + 1) seeded.2 seeded.1

/-- The failing grid for claim C6: a 3×3 ship whose centre `(1,1)` is open and
burning, `(0,1)` open, everything else closed. -/
def shipC6 : Ship :=
  ⟨3, [[⟨false, false⟩, ⟨true, false⟩, ⟨false, false⟩],
       [⟨false, false⟩, ⟨true, true⟩, ⟨false, false⟩],
       [⟨false, false⟩, ⟨false, false⟩, ⟨false, false⟩]]⟩

/-- **Claim C6.** The claim says the arrival-time forecast propagates only
through open cells. `BotController.predict_fire_spread_risk` does; but
`Environment.predict_fire_spread` (the forecast `a_star_more_risk` consumes)
propagates only through **closed** cells: on `shipC6` it assigns arrival
time 1 to the closed cell `(1,0)` and leaves the open neighbor `(0,1)` at
infinity, while the risk version assigns them `∞` and `1` respectively. -/
theorem claim_C6_arrival_forecast_bug :
    (shipC6.cellAt ((0 : ℤ), (1 : ℤ))).isOpen = true ∧
    (shipC6.cellAt ((1 : ℤ), (0 : ℤ))).isOpen = false ∧
    matGet (Environment.predict_fire_spread shipC6 [((1 : ℤ), (1 : ℤ))])
      ((1 : ℤ), (0 : ℤ)) = some 1 ∧
    matGet (Environment.predict_fire_spread shipC6 [((1 : ℤ), (1 : ℤ))])
      ((0 : ℤ), (1 : ℤ)) = none ∧
    matGet (predict_fire_spread_risk shipC6 [((1 : ℤ), (1 : ℤ))])
      ((0 : ℤ), (1 : ℤ)) = some 1 ∧
    matGet (predict_fire_spread_risk shipC6 [((1 : ℤ), (1 : ℤ))])
      ((1 : ℤ), (0 : ℤ)) = none := by
  decide

/-! ## Ignition-probability forecast (spec §4.2) -/

/-- Modelled from the spec: the ignition-probability forecast
(`P[cell][t]`) has no implementation under `src/`; spec §4.2 defines it by a
forward recurrence: `P[cell][0] = 1` if currently burning else `0`; for
`t > 0`, if `P[cell][t-1] ≈ 1` propagate as certain, otherwise the
non-ignition probability is the product over open neighbors of
`(1 − q·P[neighbor][t-1])` and
`P[t] = P[t-1] + (1 − P[t-1])·(1 − non-ignition)`. -/
def ignitionProbForecast (s : Ship) (q : ℚ) : ℕ → Pos → ℚ
  | 0 => fun p => if (s.cellAt p).onFire then 1 else 0
  | t + 1 => fun p =>
    let P := ignitionProbForecast s q t
    if 1 ≤ P p then 1
    else
      P p + (1 - P p) *
        (1 - (((s.neighborsPos p).filter (fun n => (s.cellAt n).isOpen)).map
          (fun n => 1 - q * P n)).prod)

theorem list_prod_mem_unit {l : List ℚ} (h : ∀ a ∈ l, 0 ≤ a ∧ a ≤ 1) :
    0 ≤ l.prod ∧ l.prod ≤ 1 := by
  induction l with
  | nil => simp
  | cons a l ih =>
    have ha := h a (List.mem_cons_self a l)
    have hl := ih (fun b hb => h b (List.mem_cons_of_mem a hb))
    rw [List.prod_cons]
    constructor
    · exact mul_nonneg ha.1 hl.1
    · calc a * l.prod ≤ 1 * 1 := by
            exact mul_le_mul ha.2 hl.2 hl.1 (by norm_num)
        _ = 1 := by norm_num

theorem ignitionProbForecast_mem_unit (s : Ship) (q : ℚ) (hq0 : 0 ≤ q)
    (hq1 : q ≤ 1) (t : ℕ) (p : Pos) :
    0 ≤ ignitionProbForecast s q t p ∧ ignitionProbForecast s q t p ≤ 1 := by
  induction t generalizing p with
  | zero =>
    unfold ignitionProbForecast
    by_cases h : (s.cellAt p).onFire <;> simp [h]
  | succ t ih =>
    unfold ignitionProbForecast
    simp only
    by_cases h : 1 ≤ ignitionProbForecast s q t p
    · rw [if_pos h]
      norm_num
    · rw [if_neg h]
      have hp := ih p
      have hprod : 0 ≤ (((s.neighborsPos p).filter
            (fun n => (s.cellAt n).isOpen)).map
            (fun n => 1 - q * ignitionProbForecast s q t n)).prod ∧
          (((s.neighborsPos p).filter (fun n => (s.cellAt n).isOpen)).map
            (fun n => 1 - q * ignitionProbForecast s q t n)).prod ≤ 1 := by
        apply list_prod_mem_unit
        intro a ha
        obtain ⟨n, hn, rfl⟩ := List.mem_map.mp ha
        have hnmem := ih n
        constructor
        · have : q * ignitionProbForecast s q t n ≤ 1 := by
            calc q * ignitionProbForecast s q t n ≤ 1 * 1 :=
                mul_le_mul hq1 hnmem.2 hnmem.1 (by norm_num)
              _ = 1 := by norm_num
          linarith
        · have : 0 ≤ q * ignitionProbForecast s q t n := mul_nonneg hq0 hnmem.1
          linarith
      constructor
      · have h1 : 0 ≤ 1 - ignitionProbForecast s q t p := by linarith [hp.2]
        have h2 : 0 ≤ 1 - (((s.neighborsPos p).filter
            (fun n => (s.cellAt n).isOpen)).map
            (fun n => 1 - q * ignitionProbForecast s q t n)).prod := by
          linarith [hprod.2]
        nlinarith [hp.1]
      · nlinarith [hp.1, hp.2, hprod.1, hprod.2]

/-- **Claim C9.** (spec-modelled) For the ignition-probability forecast with
`q ∈ [0,1]`: `P[cell][0] = 1` exactly when the cell is currently burning (and
`0` otherwise), `P[cell][t]` for `t > 0` satisfies the stated forward
recurrence, and `P[cell][t]` is non-decreasing in `t` for every cell. -/
theorem claim_C9_ignition_forecast (s : Ship) (q : ℚ) (hq0 : 0 ≤ q) (hq1 : q ≤ 1) :
    (∀ p : Pos, (ignitionProbForecast s q 0 p = 1 ↔ (s.cellAt p).onFire = true) ∧
      (ignitionProbForecast s q 0 p = 0 ↔ (s.cellAt p).onFire = false)) ∧
    (∀ p : Pos, ∀ t : ℕ, ignitionProbForecast s q (t + 1) p =
      (if 1 ≤ ignitionProbForecast s q t p then 1
       else ignitionProbForecast s q t p + (1 - ignitionProbForecast s q t p) *
        (1 - (((s.neighborsPos p).filter (fun n => (s.cellAt n).isOpen)).map
          (fun n => 1 - q * ignitionProbForecast s q t n)).prod))) ∧
    (∀ p : Pos, ∀ t : ℕ,
      ignitionProbForecast s q t p ≤ ignitionProbForecast s q (t + 1) p) := by
  refine ⟨?_, ?_, ?_⟩
  · intro p
    unfold ignitionProbForecast
    by_cases h : (s.cellAt p).onFire
    · simp [h]
    · have h' : (s.cellAt p).onFire = false := by
        cases hh : (s.cellAt p).onFire
        · rfl
        · exact absurd hh h
      rw [h']
      norm_num
  · intro p t
    conv_lhs => unfold ignitionProbForecast
  · intro p t
    have hp := ignitionProbForecast_mem_unit s q hq0 hq1 t p
    conv_rhs => unfold ignitionProbForecast
    simp only
    by_cases h : 1 ≤ ignitionProbForecast s q t p
    · rw [if_pos h]
      exact hp.2
    · rw [if_neg h]
      have hprod : 0 ≤ (((s.neighborsPos p).filter
            (fun n => (s.cellAt n).isOpen)).map
            (fun n => 1 - q * ignitionProbForecast s q t n)).prod ∧
          (((s.neighborsPos p).filter (fun n => (s.cellAt n).isOpen)).map
            (fun n => 1 - q * ignitionProbForecast s q t n)).prod ≤ 1 := by
        apply list_prod_mem_unit
        intro a ha
        obtain ⟨n, hn, rfl⟩ := List.mem_map.mp ha
        have hnmem := ignitionProbForecast_mem_unit s q hq0 hq1 t n
        constructor
        · have : q * ignitionProbForecast s q t n ≤ 1 := by
            calc q * ignitionProbForecast s q t n ≤ 1 * 1 :=
                mul_le_mul hq1 hnmem.2 hnmem.1 (by norm_num)
              _ = 1 := by norm_num
          linarith
        · have : 0 ≤ q * ignitionProbForecast s q t n := mul_nonneg hq0 hnmem.1
          linarith
      nlinarith [hp.2, hprod.2]

theorem claim_C9_ignition_forecast_witness :
    ignitionProbForecast shipW 1 0 ((0 : ℤ), (0 : ℤ)) ≤
      ignitionProbForecast shipW 1 1 ((0 : ℤ), (0 : ℤ)) :=
  (claim_C9_ignition_forecast shipW 1 (by norm_num) (by norm_num)).2.2
    ((0 : ℤ), (0 : ℤ)) 0

/-! ## The lookahead decision engine (`BotController` strategy 4) -/

/-- The environment attributes `botcontroller.py` reads. `initial_fire_cell`
is referenced by the controller but absent from `src/environment.py` (which
stores `fire_cell`); modelled from the spec: the single initial ignition
cell chosen at environment construction. -/
structure Env where
  ship : Ship
  q : ℚ
  buttonPos : Pos
  initialFirePos : Pos
deriving Repr

/-- Manhattan distance (`BotController.heuristic` and the inline `heuristic`
of `_cached_a_star`). -/
def heuristic (a b : Pos) : ℕ := (a.1 - b.1).natAbs + (a.2 - b.2).natAbs

/-- `BotController.simulate_fire`: one stochastic step over the cells
adjacent to the burning set. Python iterates the `candidate_cells` set in
unspecified order; the embedding fixes first-discovery order (`dedup` keeps
the first occurrence), and the uniform draws are indexed by cell position. -/
def simulate_fire (env : Env) (fire_set : List Pos) (draw : Pos → ℚ) : List Pos :=
  let candidates := (fire_set.flatMap (fun cell =>
    (env.ship.neighborsPos cell).filter
      (fun n => (env.ship.cellAt n).isOpen && !(fire_set.contains n)))).dedup
  fire_set ++ candidates.filter (fun cell =>
    let burning := ((env.ship.neighborsPos cell).filter
      (fun n => fire_set.contains n)).length
    0 < burning && decide (draw cell < igniteProb env.q burning))

/-- A lookahead state `(bot_cell, fire_set, time)`. -/
abbrev LookState := Pos × List Pos × ℕ

/-- `BotController.is_terminal`. -/
def is_terminal (env : Env) (st : LookState) : Bool :=
  st.1 = env.buttonPos || st.2.1.contains st.1

/-- `BotController.evaluate`: button reward, fire penalty, else the Manhattan
fallback `-(manhattan * 20) - t`. -/
def evaluate (env : Env) (st : LookState) : ℚ :=
  if st.1 = env.buttonPos then 10000 - (st.2.2 : ℚ)
  else if st.2.1.contains st.1 then -10000
  else -((heuristic st.1 env.buttonPos : ℚ) * 20) - (st.2.2 : ℚ)

mutual

/-- `BotController.expectimax`. Values live in `WithBot ℚ`, with `⊥` playing
the role of Python's `-math.inf`; the sequential draws of the global RNG are
modelled by a stream `rng` of per-sample draw functions consumed through the
threaded counter `ctr`. A chance node with `num_samples = 0` would divide by
zero in Python; the sources always pass `num_samples = 5`. -/
def expectimax (env : Env) (st : LookState) (depth : ℕ) (is_bot_turn : Bool)
    (num_samples : ℕ) (rng : ℕ → Pos → ℚ) (ctr : ℕ) : WithBot ℚ × ℕ :=
  if is_terminal env st then ((evaluate env st : ℚ), ctr)
  else match depth with
  | 0 => ((evaluate env st : ℚ), ctr)
  | d + 1 =>
    if hbt : is_bot_turn then
      botTurnFold env (env.ship.neighborsPos st.1) st.2.1 st.2.2 (d + 1)
        num_samples rng ⊥ ctr
    else
      chanceNodeRec env num_samples st.1 st.2.1 st.2.2 d num_samples rng 0 ctr
termination_by (2 * depth + is_bot_turn.toNat + 1, 0)
decreasing_by
  · simp_wf
    apply Prod.Lex.left
    simp only [hbt, Bool.toNat_true]
    omega
  · simp_wf
    apply Prod.Lex.left
    simp only [Bool.not_eq_true] at hbt
    simp only [hbt, Bool.toNat_false]
    omega

/-- The maximizer loop of `expectimax` over the open neighbors of the bot's
cell (same `depth`, switching to the chance ply). -/
def botTurnFold (env : Env) (nbrs : List Pos) (fire : List Pos) (t : ℕ)
    (depth : ℕ) (num_samples : ℕ) (rng : ℕ → Pos → ℚ) (best : WithBot ℚ)
    (ctr : ℕ) : WithBot ℚ × ℕ :=
  match nbrs with
  | [] => (best, ctr)
  | n :: rest =>
    if (env.ship.cellAt n).isOpen then
      let r := expectimax env (n, fire, t + 1) depth false num_samples rng ctr
      botTurnFold env rest fire t depth num_samples rng (max best r.1) r.2
    else
      botTurnFold env rest fire t depth num_samples rng best ctr
termination_by (2 * depth + 1, nbrs.length + 1)
decreasing_by
  · simp_wf
    apply Prod.Lex.right
    omega
  · simp_wf
    apply Prod.Lex.right
    omega
  · simp_wf
    apply Prod.Lex.right
    omega

/-- The chance node of `expectimax`: average `num_samples` recursive values
over sampled fire spreads, descending one depth level (`d` is already the
decremented depth). -/
def chanceNodeRec (env : Env) (k : ℕ) (pos : Pos) (fire : List Pos) (t : ℕ)
    (d : ℕ) (num_samples : ℕ) (rng : ℕ → Pos → ℚ) (total : WithBot ℚ)
    (ctr : ℕ) : WithBot ℚ × ℕ :=
  match k with
  | 0 => (total.map (fun x => x / (num_samples : ℚ)), ctr)
  | k + 1 =>
    let fire' := simulate_fire env fire (rng ctr)
    let r := expectimax env (pos, fire', t) d true num_samples rng (ctr + 1)
    chanceNodeRec env k pos fire t d num_samples rng (total + r.1) r.2
termination_by (2 * d + 2, k + 1)
decreasing_by
  · simp_wf
    apply Prod.Lex.right
    omega
  · simp_wf
    apply Prod.Lex.right
    omega

end

/-- **Claim C8.** For every remaining depth, ply flag, sample count and
random stream: a state whose position is the goal evaluates to `10000 − t`
(independent of depth), and a state whose position is burning but not the
goal evaluates to `−10000` (independent of depth). -/
theorem claim_C8_expectimax_terminal (env : Env) (st : LookState) (depth : ℕ)
    (is_bot_turn : Bool) (num_samples : ℕ) (rng : ℕ → Pos → ℚ) (ctr : ℕ) :
    (st.1 = env.buttonPos →
      (expectimax env st depth is_bot_turn num_samples rng ctr).1 =
        ((10000 - (st.2.2 : ℚ) : ℚ) : WithBot ℚ)) ∧
    (st.1 ≠ env.buttonPos → st.2.1.contains st.1 = true →
      (expectimax env st depth is_bot_turn num_samples rng ctr).1 =
        ((-10000 : ℚ) : WithBot ℚ)) := by
  constructor
  · intro hgoal
    have hterm : is_terminal env st = true := by
      unfold is_terminal
      simp [hgoal]
    have heval : evaluate env st = 10000 - (st.2.2 : ℚ) := by
      unfold evaluate
      rw [if_pos hgoal]
    rw [expectimax.eq_def, if_pos hterm, heval]
  · intro hgoal hfire
    have hterm : is_terminal env st = true := by
      unfold is_terminal
      simp only [Bool.or_eq_true, decide_eq_true_eq]
      exact Or.inr hfire
    have heval : evaluate env st = -10000 := by
      unfold evaluate
      rw [if_neg hgoal, if_pos hfire]
    rw [expectimax.eq_def, if_pos hterm, heval]

/-- The concrete environment used by witnesses for the controller claims. -/
def envW : Env := ⟨shipW, 1, ((0 : ℤ), (0 : ℤ)), ((0 : ℤ), (0 : ℤ))⟩

theorem claim_C8_expectimax_terminal_witness :
    (expectimax envW (((0 : ℤ), (0 : ℤ)), [], 3) 5 true 5 (fun _ _ => 0) 0).1 =
      ((10000 - ((3 : ℕ) : ℚ) : ℚ) : WithBot ℚ) ∧
    (expectimax envW (((0 : ℤ), (1 : ℤ)), [((0 : ℤ), (1 : ℤ))], 2) 4 false 5
      (fun _ _ => 0) 0).1 = ((-10000 : ℚ) : WithBot ℚ) :=
  ⟨(claim_C8_expectimax_terminal envW (((0 : ℤ), (0 : ℤ)), [], 3) 5 true 5
      (fun _ _ => 0) 0).1 rfl,
   (claim_C8_expectimax_terminal envW (((0 : ℤ), (1 : ℤ)), [((0 : ℤ), (1 : ℤ))], 2)
      4 false 5 (fun _ _ => 0) 0).2 (by decide) (by decide)⟩

/-! ## The shared cached A* search (`BotController._cached_a_star`) -/

/-- A heap entry `(f_score, counter, cell)` of `_cached_a_star`. -/
abbrev AEntry := ℕ × ℕ × Pos

/-- The tuple order `heapq` compares entries with: `(f, counter)`
lexicographically (counters are unique, so the cell is never compared). -/
def entryKeyLe (a b : AEntry) : Bool :=
  decide (a.1 < b.1) || (decide (a.1 = b.1) && decide (a.2.1 ≤ b.2.1))

/-- Pop the entry with the least `(f, counter)` key. `heapq.heappop` returns
the minimum of the tuple order; since keys are totally ordered and counters
unique the popped value is determined, and only the multiset of remaining
entries matters, so the heap is embedded as a plain list. -/
def popMin : List AEntry → Option (AEntry × List AEntry)
  | [] => none
  | e :: es =>
    match popMin es with
    | none => some (e, [])
    | some (m, rest) => if entryKeyLe e m then some (e, es) else some (m, e :: rest)

/-- Association-list lookup for the `g_score` / `came_from` dictionaries
(updates prepend, so the most recent binding wins). -/
def alookup {α : Type} : List (Pos × α) → Pos → Option α
  | [], _ => none
  | (k, v) :: rest, p => if k = p then some v else alookup rest p

/-- The mutable search state of `_cached_a_star`. -/
structure AStarState where
  heap : List AEntry
  gScore : List (Pos × ℕ)
  cameFrom : List (Pos × Pos)
  counter : ℕ

/-- The state change of a successful relaxation: `came_from[neighbor] =
current; g_score[neighbor] = tentative_g; heappush(...); counter += 1`. -/
def pushState (goal u w : Pos) (tentative : ℕ) (st : AStarState) : AStarState :=
  { heap := st.heap ++ [(tentative + heuristic w goal, st.counter, w)]
    gScore := (w, tentative) :: st.gScore
    cameFrom := (w, u) :: st.cameFrom
    counter := st.counter + 1 }

/-- One neighbor examination of `_cached_a_star`: skip unless the neighbor is
open and unblocked; relax if the tentative score improves. -/
def relaxNeighbor (ship : Ship) (blocked : List Pos) (goal : Pos) (u : Pos)
    (st : AStarState) (w : Pos) : AStarState :=
  if (ship.cellAt w).isOpen && !(blocked.contains w) then
    let tentative := (alookup st.gScore u).getD 0 + 1
    match alookup st.gScore w with
    | some gw => if tentative < gw then pushState goal u w tentative st else st
    | none => pushState goal u w tentative st
  else st

/-- Examine all neighbors of the popped cell, in stored-neighbor order. -/
def expandNode (ship : Ship) (blocked : List Pos) (goal : Pos) (u : Pos)
    (st : AStarState) : AStarState :=
  (ship.neighborsPos u).foldl (relaxNeighbor ship blocked goal u) st

/-- The `while current in came_from` loop of the path reconstruction,
accumulating cells goal-first. -/
def reconstructLoop (cf : List (Pos × Pos)) : ℕ → Pos → List Pos → List Pos
  | 0, _, acc => acc
  | fuel + 1, cur, acc =>
    match alookup cf cur with
    | none => acc
    | some p => reconstructLoop cf fuel p (acc ++ [cur])

/-- Reconstruction: walk the `came_from` chain from the goal, reverse, and
drop a leading `start` (`if path and path[0] == start`). -/
def reconstructPath (cf : List (Pos × Pos)) (start goalCell : Pos) (fuel : ℕ) :
    List Pos :=
  let path := (reconstructLoop cf fuel goalCell []).reverse
  if path.head? = some start then path.tail else path

/-- The main loop of `_cached_a_star`, with fuel (the loop provably performs
at most `aStarFuel` iterations, see `aStarLoop_spec`). -/
def aStarLoop (ship : Ship) (blocked : List Pos) (goal start : Pos) :
    ℕ → AStarState → List Pos
  | 0, _ => []
  | fuel + 1, st =>
    match popMin st.heap with
    | none => []
    | some ((_, _, u), rest) =>
      if u = goal then
        reconstructPath st.cameFrom start u (ship.dimension * ship.dimension + 1)
      else
        aStarLoop ship blocked goal start fuel
          (expandNode ship blocked goal u { st with heap := rest })

/-- Fuel sufficient for any run: one more than the bound on the potential
`heap length + Σ (value capacity of g_score)` proved in the invariant. -/
def aStarFuel (ship : Ship) : ℕ :=
  ship.dimension * ship.dimension * (ship.dimension * ship.dimension + 2) + 2

/-- `BotController._cached_a_star`. The `lru_cache` decorator memoizes a pure
function, so the embedding is the function itself. -/
def cached_a_star (ship : Ship) (blocked : List Pos) (start goal : Pos) :
    List Pos :=
  aStarLoop ship blocked goal start (aStarFuel ship)
    { heap := [(heuristic start goal, 0, start)]
      gScore := [(start, 0)]
      cameFrom := []
      counter := 1 }

/-! ### Specification of shortest paths -/

/-- An admissible edge of the search: `b` is a stored neighbor of `a`
(hence in bounds), open, and not in the blocked set. -/
def ValidStep (ship : Ship) (blocked : List Pos) (a b : Pos) : Prop :=
  b ∈ ship.neighborsPos a ∧ (ship.cellAt b).isOpen = true ∧ b ∉ blocked

/-- A path segment from `a` through the listed cells, ending at the last
listed cell (or at `a` when the list is empty); every listed cell is entered
through an admissible edge. -/
inductive Seg (ship : Ship) (blocked : List Pos) (a : Pos) : List Pos → Pos → Prop
  | nil : Seg ship blocked a [] a
  | snoc {l : List Pos} {u v : Pos} : Seg ship blocked a l u →
      ValidStep ship blocked u v → Seg ship blocked a (l ++ [v]) v

/-- `n` is the length of a shortest admissible path from `start` to `v`
(the list excludes `start` and ends with `v`, matching the search's output
format). -/
def HasDist (ship : Ship) (blocked : List Pos) (start v : Pos) (n : ℕ) : Prop :=
  (∃ l, Seg ship blocked start l v ∧ l.length = n) ∧
    ∀ m, (∃ l, Seg ship blocked start l v ∧ l.length = m) → n ≤ m

/-- `v` is reachable from `start` through admissible edges. -/
def ReachesGoal (ship : Ship) (blocked : List Pos) (start v : Pos) : Prop :=
  ∃ l, Seg ship blocked start l v

/-! ### Elementary path lemmas -/

section PathLemmas

variable {ship : Ship} {blocked : List Pos}

theorem concat_eq_concat {α : Type} {l₁ l₂ : List α} {x y : α}
    (h : l₁ ++ [x] = l₂ ++ [y]) : l₁ = l₂ ∧ x = y := by
  have h' := congrArg List.reverse h
  simp only [List.reverse_append, List.reverse_cons, List.reverse_nil,
    List.nil_append, List.cons_append, List.singleton_append] at h'
  obtain ⟨hx, hl⟩ := List.cons_eq_cons.mp h'
  exact ⟨by simpa using congrArg List.reverse hl, hx⟩

theorem seg_nil_eq_aux {a v : Pos} {l : List Pos} (h : Seg ship blocked a l v)
    (hl : l = []) : v = a := by
  induction h with
  | nil => rfl
  | snoc hseg hstep ih => simp at hl

theorem seg_nil_eq {a v : Pos} (h : Seg ship blocked a [] v) : v = a :=
  seg_nil_eq_aux h rfl

theorem seg_append {a u v : Pos} {l₁ l₂ : List Pos}
    (h₁ : Seg ship blocked a l₁ u) (h₂ : Seg ship blocked u l₂ v) :
    Seg ship blocked a (l₁ ++ l₂) v := by
  induction h₂ with
  | nil => simpa using h₁
  | snoc hseg hstep ih =>
    rw [← List.append_assoc]
    exact Seg.snoc ih hstep

theorem seg_split {a v : Pos} {l : List Pos} (h : Seg ship blocked a l v) :
    ∀ l₁ l₂ : List Pos, l = l₁ ++ l₂ →
      ∃ u, Seg ship blocked a l₁ u ∧ Seg ship blocked u l₂ v := by
  induction h with
  | nil =>
    intro l₁ l₂ heq
    obtain ⟨h1, h2⟩ := List.append_eq_nil.mp heq.symm
    subst h1; subst h2
    exact ⟨a, Seg.nil, Seg.nil⟩
  | @snoc l u v hseg hstep ih =>
    intro l₁ l₂ heq
    rcases List.eq_nil_or_concat l₂ with rfl | ⟨l₂', last, rfl⟩
    · rw [List.append_nil] at heq
      subst heq
      exact ⟨v, Seg.snoc hseg hstep, Seg.nil⟩
    · rw [List.concat_eq_append] at heq
      have heq' : l ++ [v] = (l₁ ++ l₂') ++ [last] := by
        rw [heq, List.append_assoc]
      obtain ⟨hl, hv⟩ := concat_eq_concat heq'
      subst hv
      obtain ⟨m, hm₁, hm₂⟩ := ih l₁ l₂' hl
      refine ⟨m, hm₁, ?_⟩
      rw [List.concat_eq_append]
      exact Seg.snoc hm₂ hstep

theorem seg_concat_end_aux {a v w : Pos} {l' l : List Pos}
    (h : Seg ship blocked a l' v) (hl : l' = l ++ [w]) : v = w := by
  induction h generalizing l with
  | nil => exact absurd hl.symm (by simp)
  | snoc hseg hstep ih => exact (concat_eq_concat hl).2

theorem seg_concat_end {a v w : Pos} {l : List Pos}
    (h : Seg ship blocked a (l ++ [w]) v) : v = w :=
  seg_concat_end_aux h rfl

theorem seg_singleton {a u x : Pos} (h : Seg ship blocked a [x] u) :
    ValidStep ship blocked a x ∧ u = x := by
  have haux : ∀ {l : List Pos}, Seg ship blocked a l u → l = [x] →
      ValidStep ship blocked a x ∧ u = x := by
    intro l hseg
    induction hseg with
    | nil => intro hl; exact absurd hl (by simp)
    | @snoc l' u' v' hseg' hstep' ih =>
      intro hl
      have hl' : l' ++ [v'] = [] ++ [x] := by simpa using hl
      obtain ⟨h1, h2⟩ := concat_eq_concat hl'
      subst h1; subst h2
      have : u' = a := seg_nil_eq hseg'
      subst this
      exact ⟨hstep', rfl⟩
  exact haux h rfl

theorem seg_cons_split {a v : Pos} {x : Pos} {rest : List Pos}
    (h : Seg ship blocked a (x :: rest) v) :
    ValidStep ship blocked a x ∧ Seg ship blocked x rest v := by
  obtain ⟨u, hu₁, hu₂⟩ := seg_split h [x] rest rfl
  obtain ⟨hstep, hux⟩ := seg_singleton hu₁
  subst hux
  exact ⟨hstep, hu₂⟩

theorem hasDist_exists {start v : Pos} (h : ReachesGoal ship blocked start v) :
    ∃ n, HasDist ship blocked start v n := by
  classical
  obtain ⟨l, hl⟩ := h
  have hex : ∃ n, ∃ l', Seg ship blocked start l' v ∧ l'.length = n :=
    ⟨l.length, l, hl, rfl⟩
  exact ⟨Nat.find hex, Nat.find_spec hex, fun m hm => Nat.find_min' hex hm⟩

theorem hasDist_unique {start v : Pos} {n m : ℕ}
    (hn : HasDist ship blocked start v n) (hm : HasDist ship blocked start v m) :
    n = m :=
  le_antisymm (hn.2 m hm.1) (hm.2 n hn.1)

theorem hasDist_start_zero (start : Pos) : HasDist ship blocked start start 0 :=
  ⟨⟨[], Seg.nil, rfl⟩, fun m _ => Nat.zero_le m⟩

theorem hasDist_pos {start v : Pos} {n : ℕ}
    (h : HasDist ship blocked start v n) (hne : v ≠ start) : 1 ≤ n := by
  by_contra hn
  have hn0 : n = 0 := by omega
  subst hn0
  obtain ⟨l, hl, hlen⟩ := h.1
  have : l = [] := List.length_eq_zero.mp hlen
  subst this
  exact hne (seg_nil_eq hl)

theorem hasDist_triangle {start u v : Pos} {n m : ℕ}
    (hu : HasDist ship blocked start u n) (hstep : ValidStep ship blocked u v)
    (hv : HasDist ship blocked start v m) : m ≤ n + 1 := by
  obtain ⟨l, hl, hlen⟩ := hu.1
  exact hv.2 (n + 1) ⟨l ++ [v], Seg.snoc hl hstep, by simp [hlen]⟩

theorem hasDist_le_of_seg {start v : Pos} {n : ℕ} {l : List Pos}
    (hd : HasDist ship blocked start v n) (hl : Seg ship blocked start l v) :
    n ≤ l.length :=
  hd.2 l.length ⟨l, hl, rfl⟩

/-- Each stored neighbor is at Manhattan distance exactly one. -/
theorem neighbors_manhattan {s : Ship} {a b : Pos} (h : b ∈ s.neighborsPos a) :
    heuristic a b = 1 := by
  simp only [Ship.neighborsPos, List.mem_filter] at h
  have h1 := h.1
  unfold heuristic
  fin_cases h1 <;> simp

theorem neighbors_in_bounds {s : Ship} {a b : Pos} (h : b ∈ s.neighborsPos a) :
    s.cell_in_bounds b.1 b.2 = true := by
  simp only [Ship.neighborsPos, List.mem_filter] at h
  exact h.2

/-- Consistency of the Manhattan heuristic along admissible edges. -/
theorem heuristic_consistent {a b goal : Pos}
    (hstep : ValidStep ship blocked a b) :
    heuristic a goal ≤ heuristic b goal + 1 := by
  have h1 := neighbors_manhattan hstep.1
  unfold heuristic at *
  have t1 : (a.1 - goal.1).natAbs ≤ (b.1 - goal.1).natAbs + (a.1 - b.1).natAbs := by
    have := Int.natAbs_add_le (b.1 - goal.1) (a.1 - b.1)
    have heq : b.1 - goal.1 + (a.1 - b.1) = a.1 - goal.1 := by ring
    rw [heq] at this
    omega
  have t2 : (a.2 - goal.2).natAbs ≤ (b.2 - goal.2).natAbs + (a.2 - b.2).natAbs := by
    have := Int.natAbs_add_le (b.2 - goal.2) (a.2 - b.2)
    have heq : b.2 - goal.2 + (a.2 - b.2) = a.2 - goal.2 := by ring
    rw [heq] at this
    omega
  omega

/-- All in-bounds positions of the ship, in row-major order. -/
def allPosList (s : Ship) : List Pos :=
  (List.range s.dimension).flatMap
    (fun r : ℕ => (List.range s.dimension).map (fun c : ℕ => ((r : ℤ), (c : ℤ))))

theorem length_allPosList (s : Ship) :
    (allPosList s).length = s.dimension * s.dimension := by
  unfold allPosList
  rw [List.length_flatMap]
  have h1 : List.map (List.length ∘ fun r : ℕ => (List.range s.dimension).map
      (fun c : ℕ => ((r : ℤ), (c : ℤ)))) (List.range s.dimension) =
      List.map (fun _ => s.dimension) (List.range s.dimension) := by
    apply List.map_congr_left
    intro r _
    simp [Function.comp]
  rw [h1]
  rw [List.map_const', List.sum_replicate, smul_eq_mul, List.length_range]

theorem mem_allPosList {s : Ship} {p : Pos} :
    p ∈ allPosList s ↔ s.cell_in_bounds p.1 p.2 = true := by
  unfold allPosList
  rw [List.mem_flatMap]
  constructor
  · rintro ⟨r, hr, hp⟩
    rw [List.mem_range] at hr
    rw [List.mem_map] at hp
    obtain ⟨c, hc, rfl⟩ := hp
    rw [List.mem_range] at hc
    unfold Ship.cell_in_bounds
    simp only [Bool.and_eq_true, decide_eq_true_eq]
    refine ⟨⟨?_, ?_⟩, ?_, ?_⟩ <;> simp <;> omega
  · intro h
    unfold Ship.cell_in_bounds at h
    simp only [Bool.and_eq_true, decide_eq_true_eq] at h
    obtain ⟨⟨h1, h2⟩, h3, h4⟩ := h
    refine ⟨p.1.toNat, ?_, ?_⟩
    · rw [List.mem_range]; omega
    · rw [List.mem_map]
      refine ⟨p.2.toNat, ?_, ?_⟩
      · rw [List.mem_range]; omega
      · exact Prod.ext (by simp [Int.toNat_of_nonneg h1])
          (by simp [Int.toNat_of_nonneg h3])

theorem seg_mem_in_bounds {a v : Pos} {l : List Pos}
    (h : Seg ship blocked a l v) :
    ∀ x ∈ l, ship.cell_in_bounds x.1 x.2 = true := by
  induction h with
  | nil => intro x hx; simp at hx
  | @snoc l u v hseg hstep ih =>
    intro x hx
    rcases List.mem_append.mp hx with hx | hx
    · exact ih x hx
    · rw [List.mem_singleton] at hx
      subst hx
      exact neighbors_in_bounds hstep.1

theorem exists_dup_split {l : List Pos} (h : ¬ l.Nodup) :
    ∃ (x : Pos) (s t u : List Pos), l = s ++ x :: (t ++ x :: u) := by
  induction l with
  | nil => simp at h
  | cons a l ih =>
    by_cases hmem : a ∈ l
    · obtain ⟨s, t, rfl⟩ := List.append_of_mem hmem
      exact ⟨a, [], s, t, by simp⟩
    · have hnd : ¬ l.Nodup := by
        intro hl
        exact h (List.nodup_cons.mpr ⟨hmem, hl⟩)
      obtain ⟨x, s, t, u, rfl⟩ := ih hnd
      exact ⟨x, a :: s, t, u, by simp⟩

theorem hasDist_path_nodup {start v : Pos} {n : ℕ} {l : List Pos}
    (hd : HasDist ship blocked start v n) (hl : Seg ship blocked start l v)
    (hlen : l.length = n) : l.Nodup := by
  by_contra hnd
  obtain ⟨x, s, t, u, rfl⟩ := exists_dup_split hnd
  have hsplit1 : s ++ x :: (t ++ x :: u) = (s ++ [x]) ++ ((t ++ [x]) ++ u) := by
    simp
  obtain ⟨m1, h1, h2⟩ := seg_split hl _ _ hsplit1
  have hm1 : m1 = x := seg_concat_end h1
  rw [hm1] at h1 h2
  obtain ⟨m2, h3, h4⟩ := seg_split h2 (t ++ [x]) u rfl
  have hm2 : m2 = x := seg_concat_end h3
  rw [hm2] at h4
  have hshort : Seg ship blocked start ((s ++ [x]) ++ u) v := seg_append h1 h4
  have hge := hd.2 ((s ++ [x]) ++ u).length ⟨_, hshort, rfl⟩
  rw [← hlen] at hge
  simp only [List.length_append, List.length_cons, List.length_nil] at hge
  omega

theorem hasDist_le_card {start v : Pos} {n : ℕ}
    (hd : HasDist ship blocked start v n) :
    n ≤ ship.dimension * ship.dimension := by
  classical
  obtain ⟨l, hl, hlen⟩ := hd.1
  have hnd : l.Nodup := hasDist_path_nodup hd hl hlen
  have hsub : l.toFinset ⊆ (allPosList ship).toFinset := by
    intro x hx
    rw [List.mem_toFinset] at hx
    rw [List.mem_toFinset]
    exact mem_allPosList.mpr (seg_mem_in_bounds hl x hx)
  have hcard : l.toFinset.card = l.length := List.toFinset_card_of_nodup hnd
  have hle := Finset.card_le_card hsub
  have h2 : (allPosList ship).toFinset.card ≤ (allPosList ship).length :=
    (allPosList ship).toFinset_card_le
  rw [hcard] at hle
  have hlen2 := length_allPosList ship
  omega

end PathLemmas

/-! ### Heap-pop and association-list lemmas -/

theorem entryKeyLe_refl (a : AEntry) : entryKeyLe a a = true := by
  simp [entryKeyLe]

theorem entryKeyLe_total (a b : AEntry) :
    entryKeyLe a b = true ∨ entryKeyLe b a = true := by
  simp only [entryKeyLe, Bool.or_eq_true, Bool.and_eq_true, decide_eq_true_eq]
  omega

theorem entryKeyLe_trans {a b c : AEntry} (h₁ : entryKeyLe a b = true)
    (h₂ : entryKeyLe b c = true) : entryKeyLe a c = true := by
  simp only [entryKeyLe, Bool.or_eq_true, Bool.and_eq_true, decide_eq_true_eq] at *
  omega

theorem entryKeyLe_fst {a b : AEntry} (h : entryKeyLe a b = true) : a.1 ≤ b.1 := by
  simp only [entryKeyLe, Bool.or_eq_true, Bool.and_eq_true, decide_eq_true_eq] at h
  omega

theorem popMin_none_iff (l : List AEntry) : popMin l = none ↔ l = [] := by
  cases l with
  | nil => simp [popMin]
  | cons e es =>
    simp only [popMin]
    cases h : popMin es with
    | none => simp
    | some p => cases p with | mk m rest => by_cases hle : entryKeyLe e m <;> simp [hle]

theorem popMin_perm {l : List AEntry} {m : AEntry} {rest : List AEntry}
    (h : popMin l = some (m, rest)) : l.Perm (m :: rest) := by
  induction l generalizing m rest with
  | nil => simp [popMin] at h
  | cons e es ih =>
    simp only [popMin] at h
    cases hes : popMin es with
    | none =>
      rw [hes] at h
      have hnil : es = [] := (popMin_none_iff es).mp hes
      subst hnil
      simp only [Option.some.injEq, Prod.mk.injEq] at h
      rw [← h.1, ← h.2]
    | some p =>
      cases p with
      | mk m' rest' =>
        rw [hes] at h
        simp only [Option.some.injEq] at h
        by_cases hle : entryKeyLe e m' = true
        · rw [if_pos hle] at h
          simp only [Option.some.injEq, Prod.mk.injEq] at h
          rw [← h.1, ← h.2]
        · rw [if_neg hle] at h
          simp only [Option.some.injEq, Prod.mk.injEq] at h
          have hperm := ih hes
          have hfull : (e :: es).Perm (m' :: e :: rest') :=
            (hperm.cons e).trans (List.Perm.swap m' e rest')
          rw [← h.1, ← h.2]
          exact hfull

theorem popMin_min {l : List AEntry} {m : AEntry} {rest : List AEntry}
    (h : popMin l = some (m, rest)) : ∀ e ∈ l, entryKeyLe m e = true := by
  induction l generalizing m rest with
  | nil => simp [popMin] at h
  | cons e es ih =>
    simp only [popMin] at h
    cases hes : popMin es with
    | none =>
      rw [hes] at h
      have hnil : es = [] := (popMin_none_iff es).mp hes
      subst hnil
      simp only [Option.some.injEq, Prod.mk.injEq] at h
      intro e' he'
      rcases List.mem_singleton.mp he' with rfl
      rw [← h.1]
      exact entryKeyLe_refl e'
    | some p =>
      cases p with
      | mk m' rest' =>
        rw [hes] at h
        simp only [Option.some.injEq] at h
        by_cases hle : entryKeyLe e m' = true
        · rw [if_pos hle] at h
          simp only [Option.some.injEq, Prod.mk.injEq] at h
          intro e' he'
          rw [← h.1]
          rcases List.mem_cons.mp he' with rfl | he'
          · exact entryKeyLe_refl e'
          · exact entryKeyLe_trans hle (ih hes e' he')
        · rw [if_neg hle] at h
          simp only [Option.some.injEq, Prod.mk.injEq] at h
          intro e' he'
          rw [← h.1]
          rcases List.mem_cons.mp he' with rfl | he'
          · rcases entryKeyLe_total e' m' with h1' | h1'
            · exact absurd h1' hle
            · exact h1'
          · exact ih hes e' he'

theorem mem_of_popMin_rest {l : List AEntry} {m e : AEntry} {rest : List AEntry}
    (h : popMin l = some (m, rest)) (he : e ∈ l) (hne : e.2.2 ≠ m.2.2) :
    e ∈ rest := by
  have hperm := popMin_perm h
  have := hperm.mem_iff.mp he
  rcases List.mem_cons.mp this with rfl | hmem
  · exact absurd rfl hne
  · exact hmem

theorem length_of_popMin {l : List AEntry} {m : AEntry} {rest : List AEntry}
    (h : popMin l = some (m, rest)) : l.length = rest.length + 1 := by
  have := (popMin_perm h).length_eq
  simpa using this

theorem neighbors_ne {s : Ship} {a b : Pos} (h : b ∈ s.neighborsPos a) : b ≠ a := by
  intro heq
  subst heq
  have := neighbors_manhattan h
  unfold heuristic at this
  simp at this

theorem alookup_cons {α : Type} (k : Pos) (x : α) (l : List (Pos × α)) (p : Pos) :
    alookup ((k, x) :: l) p = if k = p then some x else alookup l p := rfl

/-! ### The A* invariant -/

section AStarProof

variable (ship : Ship) (blocked : List Pos) (goal start : Pos)

/-- The upper bound on every shortest-path length. -/
def distBound : ℕ := ship.dimension * ship.dimension

/-- Value capacity of a cell in the termination potential. -/
def capOf (st : AStarState) (p : Pos) : ℕ :=
  (alookup st.gScore p).getD (distBound ship + 2)

/-- Total value capacity over all in-bounds cells. -/
def capSum (st : AStarState) : ℕ :=
  ∑ p ∈ (allPosList ship).toFinset, capOf ship st p

/-- The termination potential of the main loop: it strictly decreases at
every iteration. -/
def potential (st : AStarState) : ℕ := st.heap.length + capSum ship st

/-- The settled-set-independent invariants of the search state. -/
structure Core (st : AStarState) : Prop where
  g_start : alookup st.gScore start = some 0
  g_seg : ∀ v n, alookup st.gScore v = some n →
    ∃ l, Seg ship blocked start l v ∧ l.length = n
  g_bound : ∀ v n, alookup st.gScore v = some n → n ≤ distBound ship + 1
  heap_g : ∀ e ∈ st.heap, ∃ n, alookup st.gScore e.2.2 = some n ∧
    n + heuristic e.2.2 goal ≤ e.1
  cf_edge : ∀ v p, alookup st.cameFrom v = some p →
    ValidStep ship blocked p v ∧
      ∃ nv np, alookup st.gScore v = some nv ∧ alookup st.gScore p = some np ∧
        np + 1 ≤ nv
  g_cf : ∀ v n, alookup st.gScore v = some n → v ≠ start →
    ∃ p, alookup st.cameFrom v = some p
  cf_start : alookup st.cameFrom start = none

/-- Correct-and-unsettled cells keep an exactly-keyed heap entry. -/
def EEinv (st : AStarState) (S : Set Pos) : Prop :=
  ∀ v n, alookup st.gScore v = some n → HasDist ship blocked start v n → v ∉ S →
    ∃ e ∈ st.heap, e.2.2 = v ∧ e.1 = n + heuristic v goal

/-- Settled cells have exact scores and fully relaxed out-edges. -/
def SPinv (st : AStarState) (S : Set Pos) : Prop :=
  ∀ v ∈ S, ∃ n, alookup st.gScore v = some n ∧
    HasDist ship blocked start v n ∧
    ∀ w, ValidStep ship blocked v w →
      ∃ m, alookup st.gScore w = some m ∧ m ≤ n + 1

/-- The full loop invariant, with ghost settled set `S`. -/
structure AInv (st : AStarState) (S : Set Pos) : Prop where
  core : Core ship blocked goal start st
  goal_not : goal ∉ S
  settled : SPinv ship blocked start st S
  exact_entry : EEinv ship blocked goal start st S

/-- Mid-expansion variant of `EEinv`: the vertex being expanded is excluded
(it joins the settled set when the expansion completes). -/
def EEx (st : AStarState) (S : Set Pos) (u : Pos) : Prop :=
  ∀ v n, alookup st.gScore v = some n → HasDist ship blocked start v n → v ∉ S →
    v ≠ u → ∃ e ∈ st.heap, e.2.2 = v ∧ e.1 = n + heuristic v goal

end AStarProof

section RelaxProof

variable {ship : Ship} {blocked : List Pos} {goal start : Pos}

/-- The mid-expansion facts preserved by one successful relaxation. -/
theorem pushState_spec {u w : Pos} {gu : ℕ} {S : Set Pos} {st : AStarState}
    (hW : w ∈ ship.neighborsPos u)
    (hopen : (ship.cellAt w).isOpen = true) (hnb : w ∉ blocked)
    (hcore : Core ship blocked goal start st)
    (hgu : alookup st.gScore u = some gu)
    (hud : HasDist ship blocked start u gu)
    (hee : EEx ship blocked goal start st S u)
    (hsp : SPinv ship blocked start st S)
    (hlow : ∀ gw, alookup st.gScore w = some gw → gu + 1 < gw) :
    Core ship blocked goal start (pushState goal u w (gu + 1) st) ∧
    alookup (pushState goal u w (gu + 1) st).gScore u = some gu ∧
    EEx ship blocked goal start (pushState goal u w (gu + 1) st) S u ∧
    SPinv ship blocked start (pushState goal u w (gu + 1) st) S ∧
    (∀ v n, alookup st.gScore v = some n →
      ∃ n', n' ≤ n ∧ alookup (pushState goal u w (gu + 1) st).gScore v = some n') ∧
    (∀ e ∈ st.heap, e ∈ (pushState goal u w (gu + 1) st).heap) ∧
    (∃ m, alookup (pushState goal u w (gu + 1) st).gScore w = some m ∧ m ≤ gu + 1) ∧
    (pushState goal u w (gu + 1) st).heap.length +
        capSum ship (pushState goal u w (gu + 1) st) ≤
      st.heap.length + capSum ship st := by
  set st' := pushState goal u w (gu + 1) st with hst'
  have hvs : ValidStep ship blocked u w := ⟨hW, hopen, hnb⟩
  have hwu : w ≠ u := neighbors_ne hW
  have hgub : gu ≤ distBound ship := hasDist_le_card hud
  obtain ⟨lu, hlu, hlulen⟩ := hud.1
  have hpathw : Seg ship blocked start (lu ++ [w]) w := Seg.snoc hlu hvs
  have hplen : (lu ++ [w]).length = gu + 1 := by simp [hlulen]
  have hwstart : w ≠ start := by
    intro heq
    subst heq
    exact absurd (hlow 0 hcore.g_start) (by omega)
  have hlookup : ∀ v : Pos, alookup st'.gScore v =
      if w = v then some (gu + 1) else alookup st.gScore v := by
    intro v
    rfl
  have hcf : ∀ v : Pos, alookup st'.cameFrom v =
      if w = v then some u else alookup st.cameFrom v := by
    intro v
    rfl
  have hheap : st'.heap = st.heap ++ [(gu + 1 + heuristic w goal, st.counter, w)] :=
    rfl
  have hmono : ∀ v n, alookup st.gScore v = some n →
      ∃ n', n' ≤ n ∧ alookup st'.gScore v = some n' := by
    intro v n hv
    rw [hlookup]
    by_cases hwv : w = v
    · subst hwv
      exact ⟨gu + 1, le_of_lt (hlow n hv), by rw [if_pos rfl]⟩
    · exact ⟨n, le_refl n, by rw [if_neg hwv]; exact hv⟩
  have hcore' : Core ship blocked goal start st' := by
    refine ⟨?_, ?_, ?_, ?_, ?_, ?_, ?_⟩
    · rw [hlookup, if_neg hwstart]
      exact hcore.g_start
    · intro v n hv
      rw [hlookup] at hv
      by_cases hwv : w = v
      · subst hwv
        rw [if_pos rfl] at hv
        obtain rfl : gu + 1 = n := Option.some.injEq .. ▸ hv
        exact ⟨lu ++ [w], hpathw, hplen⟩
      · rw [if_neg hwv] at hv
        exact hcore.g_seg v n hv
    · intro v n hv
      rw [hlookup] at hv
      by_cases hwv : w = v
      · subst hwv
        rw [if_pos rfl] at hv
        obtain rfl : gu + 1 = n := Option.some.injEq .. ▸ hv
        omega
      · rw [if_neg hwv] at hv
        exact hcore.g_bound v n hv
    · intro e he
      rw [hheap] at he
      rcases List.mem_append.mp he with he | he
      · obtain ⟨n, hn, hnle⟩ := hcore.heap_g e he
        rw [hlookup]
        by_cases hwv : w = e.2.2
        · refine ⟨gu + 1, by rw [if_pos hwv], ?_⟩
          have := hlow n (hwv ▸ hn)
          omega
        · exact ⟨n, by rw [if_neg hwv]; exact hn, hnle⟩
      · rw [List.mem_singleton] at he
        subst he
        rw [hlookup]
        exact ⟨gu + 1, by rw [if_pos rfl], le_refl _⟩
    · intro v p hp
      rw [hcf] at hp
      by_cases hwv : w = v
      · subst hwv
        rw [if_pos rfl] at hp
        obtain rfl : u = p := Option.some.injEq .. ▸ hp
        refine ⟨hvs, gu + 1, gu, ?_, ?_, le_refl _⟩
        · rw [hlookup, if_pos rfl]
        · rw [hlookup, if_neg (by exact fun h => hwu h)]
          exact hgu
      · rw [if_neg hwv] at hp
        obtain ⟨hstep, nv, np, hnv, hnp, hnle⟩ := hcore.cf_edge v p hp
        refine ⟨hstep, nv, ?_⟩
        rw [hlookup, if_neg hwv]
        by_cases hwp : w = p
        · subst hwp
          have := hlow np hnp
          exact ⟨gu + 1, hnv, by rw [hlookup, if_pos rfl], by omega⟩
        · exact ⟨np, hnv, by rw [hlookup, if_neg hwp]; exact hnp, hnle⟩
    · intro v n hv hvstart
      rw [hlookup] at hv
      by_cases hwv : w = v
      · exact ⟨u, by rw [hcf, if_pos hwv]⟩
      · rw [if_neg hwv] at hv
        obtain ⟨p, hp⟩ := hcore.g_cf v n hv hvstart
        exact ⟨p, by rw [hcf, if_neg hwv]; exact hp⟩
    · rw [hcf, if_neg hwstart]
      exact hcore.cf_start
  have hustable : alookup st'.gScore u = some gu := by
    rw [hlookup, if_neg (fun h => hwu h)]
    exact hgu
  have hee' : EEx ship blocked goal start st' S u := by
    intro v n hv hd hvS hvu
    rw [hlookup] at hv
    by_cases hwv : w = v
    · subst hwv
      rw [if_pos rfl] at hv
      obtain rfl : gu + 1 = n := Option.some.injEq .. ▸ hv
      refine ⟨(gu + 1 + heuristic w goal, st.counter, w), ?_, rfl, rfl⟩
      rw [hheap]
      exact List.mem_append.mpr (Or.inr (List.mem_singleton.mpr rfl))
    · rw [if_neg hwv] at hv
      obtain ⟨e, he, hepos, hekey⟩ := hee v n hv hd hvS hvu
      exact ⟨e, by rw [hheap]; exact List.mem_append.mpr (Or.inl he), hepos, hekey⟩
  have hsp' : SPinv ship blocked start st' S := by
    intro v hvS
    obtain ⟨n, hv, hd, hnbrs⟩ := hsp v hvS
    have hwv : w ≠ v := by
      intro heq
      subst heq
      have h1 := hlow n hv
      have h2 := hd.2 (gu + 1) ⟨lu ++ [w], hpathw, hplen⟩
      omega
    refine ⟨n, by rw [hlookup, if_neg hwv]; exact hv, hd, ?_⟩
    intro w' hw'
    obtain ⟨m, hm, hmle⟩ := hnbrs w' hw'
    rw [hlookup]
    by_cases hww' : w = w'
    · subst hww'
      have := hlow m hm
      exact ⟨gu + 1, by rw [if_pos rfl], by omega⟩
    · exact ⟨m, by rw [if_neg hww']; exact hm, hmle⟩
  have hheapmono : ∀ e ∈ st.heap, e ∈ st'.heap := by
    intro e he
    rw [hheap]
    exact List.mem_append.mpr (Or.inl he)
  have hwbound : ∃ m, alookup st'.gScore w = some m ∧ m ≤ gu + 1 :=
    ⟨gu + 1, by rw [hlookup, if_pos rfl], le_refl _⟩
  have hpot : st'.heap.length + capSum ship st' ≤
      st.heap.length + capSum ship st := by
    have hwposs : w ∈ (allPosList ship).toFinset := by
      rw [List.mem_toFinset]
      exact mem_allPosList.mpr (neighbors_in_bounds hW)
    have hsum_old := Finset.add_sum_erase _ (capOf ship st) hwposs
    have hsum_new := Finset.add_sum_erase _ (capOf ship st') hwposs
    have herase_eq : ∑ x ∈ ((allPosList ship).toFinset).erase w, capOf ship st' x =
        ∑ x ∈ ((allPosList ship).toFinset).erase w, capOf ship st x := by
      apply Finset.sum_congr rfl
      intro x hx
      have hxw : x ≠ w := (Finset.mem_erase.mp hx).1
      unfold capOf
      rw [hlookup, if_neg (fun h => hxw h.symm)]
    have hcap_new : capOf ship st' w = gu + 1 := by
      unfold capOf
      rw [hlookup, if_pos rfl, Option.getD_some]
    have hcap_drop : gu + 1 + 1 ≤ capOf ship st w := by
      unfold capOf
      cases hlw : alookup st.gScore w with
      | some gw =>
        rw [Option.getD_some]
        have := hlow gw hlw
        omega
      | none =>
        rw [Option.getD_none]
        omega
    have hlen : st'.heap.length = st.heap.length + 1 := by
      rw [hheap, List.length_append, List.length_singleton]
    unfold capSum at *
    omega
  exact ⟨hcore', hustable, hee', hsp', hmono, hheapmono, hwbound, hpot⟩

theorem relaxNeighbor_eq_skip_guard {u w : Pos} {st : AStarState}
    (hguard : ¬ ((ship.cellAt w).isOpen && !(blocked.contains w)) = true) :
    relaxNeighbor ship blocked goal u st w = st := by
  unfold relaxNeighbor
  rw [if_neg hguard]

theorem relaxNeighbor_eq_push_none {u w : Pos} {gu : ℕ} {st : AStarState}
    (hguard : ((ship.cellAt w).isOpen && !(blocked.contains w)) = true)
    (hgu : alookup st.gScore u = some gu)
    (hlw : alookup st.gScore w = none) :
    relaxNeighbor ship blocked goal u st w = pushState goal u w (gu + 1) st := by
  unfold relaxNeighbor
  rw [if_pos hguard, hgu, hlw]
  rfl

theorem relaxNeighbor_eq_push_lt {u w : Pos} {gu gw : ℕ} {st : AStarState}
    (hguard : ((ship.cellAt w).isOpen && !(blocked.contains w)) = true)
    (hgu : alookup st.gScore u = some gu)
    (hlw : alookup st.gScore w = some gw) (himp : gu + 1 < gw) :
    relaxNeighbor ship blocked goal u st w = pushState goal u w (gu + 1) st := by
  unfold relaxNeighbor
  rw [if_pos hguard, hgu, hlw]
  simp only [Option.getD_some]
  rw [if_pos himp]

theorem relaxNeighbor_eq_skip_ge {u w : Pos} {gu gw : ℕ} {st : AStarState}
    (hguard : ((ship.cellAt w).isOpen && !(blocked.contains w)) = true)
    (hgu : alookup st.gScore u = some gu)
    (hlw : alookup st.gScore w = some gw) (himp : ¬ gu + 1 < gw) :
    relaxNeighbor ship blocked goal u st w = st := by
  unfold relaxNeighbor
  rw [if_pos hguard, hgu, hlw]
  simp only [Option.getD_some]
  rw [if_neg himp]

/-- The full preservation statement for a single neighbor examination. -/
theorem relaxNeighbor_spec {u w : Pos} {gu : ℕ} {S : Set Pos} {st : AStarState}
    (hW : w ∈ ship.neighborsPos u)
    (hcore : Core ship blocked goal start st)
    (hgu : alookup st.gScore u = some gu)
    (hud : HasDist ship blocked start u gu)
    (hee : EEx ship blocked goal start st S u)
    (hsp : SPinv ship blocked start st S) :
    Core ship blocked goal start (relaxNeighbor ship blocked goal u st w) ∧
    alookup (relaxNeighbor ship blocked goal u st w).gScore u = some gu ∧
    EEx ship blocked goal start (relaxNeighbor ship blocked goal u st w) S u ∧
    SPinv ship blocked start (relaxNeighbor ship blocked goal u st w) S ∧
    (∀ v n, alookup st.gScore v = some n →
      ∃ n', n' ≤ n ∧ alookup (relaxNeighbor ship blocked goal u st w).gScore v = some n') ∧
    (∀ e ∈ st.heap, e ∈ (relaxNeighbor ship blocked goal u st w).heap) ∧
    ((ship.cellAt w).isOpen = true → w ∉ blocked →
      ∃ m, alookup (relaxNeighbor ship blocked goal u st w).gScore w = some m ∧
        m ≤ gu + 1) ∧
    ((relaxNeighbor ship blocked goal u st w).heap.length +
        capSum ship (relaxNeighbor ship blocked goal u st w) ≤
      st.heap.length + capSum ship st) := by
  by_cases hguard : ((ship.cellAt w).isOpen && !(blocked.contains w)) = true
  · have hguard' : (ship.cellAt w).isOpen = true ∧ w ∉ blocked := by
      simpa using hguard
    have hopen := hguard'.1
    have hnb := hguard'.2
    cases hlw : alookup st.gScore w with
    | some gw =>
      by_cases himp : gu + 1 < gw
      · rw [relaxNeighbor_eq_push_lt hguard hgu hlw himp]
        have hlow : ∀ gw', alookup st.gScore w = some gw' → gu + 1 < gw' := by
          intro gw' hgw'
          rw [hlw] at hgw'
          cases hgw'
          exact himp
        obtain ⟨h1, h2, h3, h4, h5, h6, h7, h8⟩ :=
          pushState_spec hW hopen hnb hcore hgu hud hee hsp hlow
        exact ⟨h1, h2, h3, h4, h5, h6, fun _ _ => h7, h8⟩
      · rw [relaxNeighbor_eq_skip_ge hguard hgu hlw himp]
        refine ⟨hcore, hgu, hee, hsp, ?_, ?_, ?_, le_refl _⟩
        · exact fun v n hv => ⟨n, le_refl n, hv⟩
        · exact fun e he => he
        · exact fun _ _ => ⟨gw, hlw, by omega⟩
    | none =>
      rw [relaxNeighbor_eq_push_none hguard hgu hlw]
      have hlow : ∀ gw', alookup st.gScore w = some gw' → gu + 1 < gw' := by
        intro gw' hgw'
        rw [hlw] at hgw'
        cases hgw'
      obtain ⟨h1, h2, h3, h4, h5, h6, h7, h8⟩ :=
        pushState_spec hW hopen hnb hcore hgu hud hee hsp hlow
      exact ⟨h1, h2, h3, h4, h5, h6, fun _ _ => h7, h8⟩
  · rw [relaxNeighbor_eq_skip_guard hguard]
    refine ⟨hcore, hgu, hee, hsp, ?_, ?_, ?_, le_refl _⟩
    · exact fun v n hv => ⟨n, le_refl n, hv⟩
    · exact fun e he => he
    · intro hopen hnb
      exfalso
      apply hguard
      simp [hopen, hnb]

/-- Preservation along the whole neighbor fold of an expansion. -/
theorem foldRelax_spec {u : Pos} {gu : ℕ} {S : Set Pos} :
    ∀ (ns : List Pos) (st : AStarState), (∀ x ∈ ns, x ∈ ship.neighborsPos u) →
    Core ship blocked goal start st →
    alookup st.gScore u = some gu →
    HasDist ship blocked start u gu →
    EEx ship blocked goal start st S u →
    SPinv ship blocked start st S →
    Core ship blocked goal start
      (ns.foldl (relaxNeighbor ship blocked goal u) st) ∧
    alookup (ns.foldl (relaxNeighbor ship blocked goal u) st).gScore u = some gu ∧
    EEx ship blocked goal start (ns.foldl (relaxNeighbor ship blocked goal u) st) S u ∧
    SPinv ship blocked start (ns.foldl (relaxNeighbor ship blocked goal u) st) S ∧
    (∀ v n, alookup st.gScore v = some n → ∃ n', n' ≤ n ∧
      alookup (ns.foldl (relaxNeighbor ship blocked goal u) st).gScore v = some n') ∧
    (∀ e ∈ st.heap, e ∈ (ns.foldl (relaxNeighbor ship blocked goal u) st).heap) ∧
    (∀ x ∈ ns, (ship.cellAt x).isOpen = true → x ∉ blocked →
      ∃ m, alookup (ns.foldl (relaxNeighbor ship blocked goal u) st).gScore x = some m ∧
        m ≤ gu + 1) ∧
    ((ns.foldl (relaxNeighbor ship blocked goal u) st).heap.length +
        capSum ship (ns.foldl (relaxNeighbor ship blocked goal u) st) ≤
      st.heap.length + capSum ship st) := by
  intro ns
  induction ns with
  | nil =>
    intro st hmem hcore hgu hud hee hsp
    refine ⟨hcore, hgu, hee, hsp, ?_, ?_, ?_, le_refl _⟩
    · exact fun v n hv => ⟨n, le_refl n, hv⟩
    · exact fun e he => he
    · intro x hx
      simp at hx
  | cons x ns ih =>
    intro st hmem hcore hgu hud hee hsp
    obtain ⟨c1, c2, c3, c4, c5, c6, c7, c8⟩ :=
      relaxNeighbor_spec (w := x) (hmem x (List.mem_cons_self x ns)) hcore hgu hud hee hsp
    have hmem' : ∀ y ∈ ns, y ∈ ship.neighborsPos u :=
      fun y hy => hmem y (List.mem_cons_of_mem x hy)
    obtain ⟨d1, d2, d3, d4, d5, d6, d7, d8⟩ :=
      ih (relaxNeighbor ship blocked goal u st x) hmem' c1 c2 hud c3 c4
    rw [List.foldl_cons]
    refine ⟨d1, d2, d3, d4, ?_, ?_, ?_, ?_⟩
    · intro v n hv
      obtain ⟨n', hn'le, hn'⟩ := c5 v n hv
      obtain ⟨n'', hn''le, hn''⟩ := d5 v n' hn'
      exact ⟨n'', le_trans hn''le hn'le, hn''⟩
    · exact fun e he => d6 e (c6 e he)
    · intro y hy hyopen hynb
      rcases List.mem_cons.mp hy with rfl | hy
      · obtain ⟨m, hm, hmle⟩ := c7 hyopen hynb
        obtain ⟨m', hm'le, hm'⟩ := d5 y m hm
        exact ⟨m', hm', by omega⟩
      · exact d7 y hy hyopen hynb
    · omega

/-- One full expansion preserves the invariant with the popped vertex settled
and does not increase the value part of the potential. -/
theorem expandNode_spec {u : Pos} {gu : ℕ} {S : Set Pos} {st : AStarState}
    (hcore : Core ship blocked goal start st)
    (hgu : alookup st.gScore u = some gu)
    (hud : HasDist ship blocked start u gu)
    (hee : EEx ship blocked goal start st S u)
    (hsp : SPinv ship blocked start st S)
    (hgoal : goal ∉ S) (hugoal : u ≠ goal) :
    AInv ship blocked goal start (expandNode ship blocked goal u st) (S ∪ {u}) ∧
    ((expandNode ship blocked goal u st).heap.length +
        capSum ship (expandNode ship blocked goal u st) ≤
      st.heap.length + capSum ship st) := by
  obtain ⟨d1, d2, d3, d4, d5, d6, d7, d8⟩ :=
    foldRelax_spec (ship.neighborsPos u) st (fun x hx => hx) hcore hgu hud hee hsp
  refine ⟨⟨d1, ?_, ?_, ?_⟩, d8⟩
  · intro hmem
    rcases Set.mem_union .. |>.mp hmem with h | h
    · exact hgoal h
    · exact hugoal (Set.mem_singleton_iff.mp h).symm
  · intro v hv
    rcases Set.mem_union .. |>.mp hv with h | h
    · exact d4 v h
    · rw [Set.mem_singleton_iff] at h
      subst h
      refine ⟨gu, d2, hud, ?_⟩
      intro w hw
      exact d7 w hw.1 hw.2.1 hw.2.2
  · intro v n hv hd hvS
    have hvS' : v ∉ S := fun h => hvS (Set.mem_union_left _ h)
    have hvu : v ≠ u := fun h => hvS (Set.mem_union_right _ (h ▸ rfl))
    exact d3 v n hv hd hvS' hvu

/-- Whenever a reachable vertex is unsettled, the heap holds an entry for an
exactly-scored vertex whose key is at most `dist v + h v` — the classical
frontier property of A* with a consistent heuristic. -/
theorem frontier_witness {st : AStarState} {S : Set Pos}
    (hinv : AInv ship blocked goal start st S) :
    ∀ (d : ℕ) (v : Pos), HasDist ship blocked start v d → v ∉ S →
    ∃ e ∈ st.heap, ∃ ny, alookup st.gScore e.2.2 = some ny ∧
      HasDist ship blocked start e.2.2 ny ∧
      e.1 = ny + heuristic e.2.2 goal ∧
      ny + heuristic e.2.2 goal ≤ d + heuristic v goal := by
  intro d
  induction d using Nat.strong_induction_on with
  | _ d ih =>
    intro v hd hvS
    obtain ⟨l, hl, hlen⟩ := hd.1
    rcases List.eq_nil_or_concat l with rfl | ⟨l', x, rfl⟩
    · have hv : v = start := seg_nil_eq hl
      subst hv
      have hd0 : d = 0 := by simpa using hlen.symm
      subst hd0
      obtain ⟨e, he, hepos, hekey⟩ :=
        hinv.exact_entry v 0 hinv.core.g_start (hasDist_start_zero v) hvS
      refine ⟨e, he, 0, ?_, ?_, ?_, ?_⟩
      · rw [hepos]; exact hinv.core.g_start
      · rw [hepos]; exact hasDist_start_zero v
      · rw [hepos]; exact hekey
      · rw [hepos]
    · rw [List.concat_eq_append] at hl hlen
      have hxv : v = x := seg_concat_end hl
      subst hxv
      obtain ⟨u', hl', hstep'⟩ := seg_split hl l' [v] rfl
      obtain ⟨hvs, _⟩ := seg_singleton hstep'
      obtain ⟨du, hdu⟩ := @hasDist_exists ship blocked start u' ⟨l', hl'⟩
      have hdul : du ≤ l'.length := hasDist_le_of_seg hdu hl'
      have hlend : l'.length + 1 = d := by simpa using hlen
      have hcons := @heuristic_consistent _ _ _ _ goal hvs
      by_cases hu'S : u' ∈ S
      · obtain ⟨n, hn, hdn, hnbrs⟩ := hinv.settled u' hu'S
        have hnd : n = du := hasDist_unique hdn hdu
        obtain ⟨m, hm, hmle⟩ := hnbrs v hvs
        obtain ⟨lm, hlm, hlmlen⟩ := hinv.core.g_seg v m hm
        have hdm : d ≤ m := hd.2 m ⟨lm, hlm, hlmlen⟩
        have hmd : m = d := by omega
        subst hmd
        obtain ⟨e, he, hepos, hekey⟩ := hinv.exact_entry v m hm hd hvS
        refine ⟨e, he, m, ?_, ?_, ?_, ?_⟩
        · rw [hepos]; exact hm
        · rw [hepos]; exact hd
        · rw [hepos]; exact hekey
        · rw [hepos]
      · have hdud : du < d := by omega
        obtain ⟨e, he, ny, hny, hdny, hekey, hble⟩ := ih du hdud u' hdu hu'S
        refine ⟨e, he, ny, hny, hdny, hekey, ?_⟩
        omega

/-- Every popped entry's vertex has an exact g-score at pop time. -/
theorem pop_exact {st : AStarState} {S : Set Pos} {m : AEntry}
    {rest : List AEntry} (hinv : AInv ship blocked goal start st S)
    (hpop : popMin st.heap = some (m, rest)) :
    ∃ n, alookup st.gScore m.2.2 = some n ∧
      HasDist ship blocked start m.2.2 n := by
  have hmem : m ∈ st.heap :=
    (popMin_perm hpop).mem_iff.mpr (List.mem_cons_self m rest)
  obtain ⟨n, hn, hnle⟩ := hinv.core.heap_g m hmem
  obtain ⟨l, hl, hlen⟩ := hinv.core.g_seg m.2.2 n hn
  obtain ⟨d, hd⟩ := @hasDist_exists ship blocked start m.2.2 ⟨l, hl⟩
  have hdn : d ≤ n := hd.2 n ⟨l, hl, hlen⟩
  by_cases hS : m.2.2 ∈ S
  · obtain ⟨n', hn', hd', _⟩ := hinv.settled m.2.2 hS
    rw [hn] at hn'
    cases hn'
    exact ⟨n, hn, hd'⟩
  · by_cases hdeq : d = n
    · subst hdeq
      exact ⟨d, hn, hd⟩
    · exfalso
      have hdlt : d < n := lt_of_le_of_ne hdn hdeq
      obtain ⟨e, he, ny, hny, hdny, hekey, hble⟩ :=
        frontier_witness hinv d m.2.2 hd hS
      have hmle := entryKeyLe_fst (popMin_min hpop e he)
      omega

theorem reconstructLoop_eq_none {cf : List (Pos × Pos)} {v : Pos}
    {acc : List Pos} {fuel : ℕ} (hcf : alookup cf v = none) :
    reconstructLoop cf (fuel + 1) v acc = acc := by
  unfold reconstructLoop
  rw [hcf]

theorem reconstructLoop_eq_some {cf : List (Pos × Pos)} {v p : Pos}
    {acc : List Pos} {fuel : ℕ} (hcf : alookup cf v = some p) :
    reconstructLoop cf (fuel + 1) v acc =
      reconstructLoop cf fuel p (acc ++ [v]) := by
  simp only [reconstructLoop, hcf]

/-- The reconstruction loop follows `came_from` links back to `start` and
yields (reversed) an admissible path of length at most the g-score. -/
theorem reconstructLoop_spec {st : AStarState}
    (hcore : Core ship blocked goal start st) :
    ∀ (n : ℕ) (v : Pos) (acc : List Pos) (fuel : ℕ),
      alookup st.gScore v = some n → n < fuel →
      ∃ l : List Pos, reconstructLoop st.cameFrom fuel v acc = acc ++ l ∧
        Seg ship blocked start l.reverse v ∧ l.reverse.length ≤ n ∧
        (v ≠ start → l ≠ []) := by
  intro n
  induction n using Nat.strong_induction_on with
  | _ n ih =>
    intro v acc fuel hv hfuel
    cases fuel with
    | zero => omega
    | succ fuel =>
      cases hcf : alookup st.cameFrom v with
      | none =>
        have hvstart : v = start := by
          by_contra hne
          obtain ⟨p, hp⟩ := hcore.g_cf v n hv hne
          rw [hcf] at hp
          cases hp
        refine ⟨[], by rw [reconstructLoop_eq_none hcf]; simp, ?_, by simp, ?_⟩
        · rw [hvstart]
          exact Seg.nil
        · intro hne
          exact absurd hvstart hne
      | some p =>
        obtain ⟨hstep, nv, np, hnv, hnp, hle⟩ := hcore.cf_edge v p hcf
        rw [hv] at hnv
        cases hnv
        have hnplt : np < n := by omega
        obtain ⟨l', hrec, hseg, hlen, _⟩ :=
          ih np hnplt p (acc ++ [v]) fuel hnp (by omega)
        refine ⟨[v] ++ l', ?_, ?_, ?_, ?_⟩
        · rw [reconstructLoop_eq_some hcf, hrec]
          simp
        · rw [List.reverse_append]
          simp only [List.reverse_singleton, List.singleton_append]
          have : l'.reverse ++ [v] = l'.reverse ++ [v] := rfl
          exact Seg.snoc hseg hstep
        · rw [List.reverse_append]
          simp only [List.reverse_singleton, List.singleton_append,
            List.length_append, List.length_cons, List.length_nil]
          omega
        · intro _
          simp

theorem aStarLoop_eq_empty {st : AStarState} {fuel : ℕ}
    (hpop : popMin st.heap = none) :
    aStarLoop ship blocked goal start (fuel + 1) st = [] := by
  unfold aStarLoop
  rw [hpop]

theorem aStarLoop_eq_pop {st : AStarState} {fuel : ℕ} {m : AEntry}
    {rest : List AEntry} (hpop : popMin st.heap = some (m, rest)) :
    aStarLoop ship blocked goal start (fuel + 1) st =
      if m.2.2 = goal then
        reconstructPath st.cameFrom start m.2.2
          (ship.dimension * ship.dimension + 1)
      else
        aStarLoop ship blocked goal start fuel
          (expandNode ship blocked goal m.2.2 { st with heap := rest }) := by
  obtain ⟨f, c, u⟩ := m
  simp only [aStarLoop, hpop]

/-- The main-loop specification: from any invariant state with enough fuel,
the loop either reports unreachability with the empty path, or returns a
shortest admissible path to the goal. -/
theorem aStarLoop_spec (hne : goal ≠ start) :
    ∀ (fuel : ℕ) (st : AStarState) (S : Set Pos),
      AInv ship blocked goal start st S →
      st.heap.length + capSum ship st < fuel →
      (aStarLoop ship blocked goal start fuel st = [] ∧
        ¬ ReachesGoal ship blocked start goal) ∨
      (Seg ship blocked start (aStarLoop ship blocked goal start fuel st) goal ∧
        HasDist ship blocked start goal
          (aStarLoop ship blocked goal start fuel st).length ∧
        aStarLoop ship blocked goal start fuel st ≠ []) := by
  intro fuel
  induction fuel with
  | zero =>
    intro st S hinv hfuel
    omega
  | succ fuel ih =>
    intro st S hinv hfuel
    cases hpop : popMin st.heap with
    | none =>
      have hheap : st.heap = [] := (popMin_none_iff _).mp hpop
      rw [aStarLoop_eq_empty hpop]
      left
      refine ⟨rfl, ?_⟩
      rintro ⟨l, hl⟩
      obtain ⟨d, hd⟩ := @hasDist_exists ship blocked start goal ⟨l, hl⟩
      obtain ⟨e, he, _⟩ := frontier_witness hinv d goal hd hinv.goal_not
      rw [hheap] at he
      simp at he
    | some pr =>
      obtain ⟨m, rest⟩ := pr
      obtain ⟨gu, hgu, hud⟩ := pop_exact hinv hpop
      rw [aStarLoop_eq_pop hpop]
      by_cases hgoalu : m.2.2 = goal
      · rw [if_pos hgoalu]
        right
        rw [hgoalu] at hgu hud
        rw [hgoalu]
        have hgub : gu ≤ distBound ship := hasDist_le_card hud
        obtain ⟨l, hrec, hseg, hlen, hnonempty⟩ :=
          reconstructLoop_spec hinv.core gu goal []
            (ship.dimension * ship.dimension + 1) hgu
            (by unfold distBound at hgub; omega)
        have hlne : l ≠ [] := hnonempty hne
        have hpathlen : l.reverse.length = gu := by
          have h1 := hud.2 l.reverse.length ⟨l.reverse, hseg, rfl⟩
          omega
        have hpath : reconstructPath st.cameFrom start goal
            (ship.dimension * ship.dimension + 1) = l.reverse := by
          unfold reconstructPath
          rw [hrec]
          simp only [List.nil_append]
          obtain ⟨x, r, hxr⟩ := List.exists_cons_of_ne_nil
            (fun h => hlne (by simpa using congrArg List.reverse h) : l.reverse ≠ [])
          rw [hxr]
          have hxstep := (seg_cons_split (hxr ▸ hseg)).1
          have hxne : x ≠ start := neighbors_ne hxstep.1
          rw [if_neg (by simp [hxne])]
        rw [hpath]
        refine ⟨hseg, ?_, ?_⟩
        · rw [hpathlen]
          exact hud
        · intro h
          exact hlne (by simpa using congrArg List.reverse h)
      · rw [if_neg hgoalu]
        set st0 : AStarState := { st with heap := rest } with hst0
        have hcore0 : Core ship blocked goal start st0 := by
          obtain ⟨a1, a2, a3, a4, a5, a6, a7⟩ := hinv.core
          refine ⟨a1, a2, a3, ?_, a5, a6, a7⟩
          intro e he
          exact a4 e ((popMin_perm hpop).symm.subset (List.mem_cons_of_mem m he))
        have hee0 : EEx ship blocked goal start st0 S m.2.2 := by
          intro v n hv hd hvS hvm
          obtain ⟨e, he, hepos, hekey⟩ := hinv.exact_entry v n hv hd hvS
          refine ⟨e, ?_, hepos, hekey⟩
          exact mem_of_popMin_rest hpop he (by rw [hepos]; exact hvm)
        have hsp0 : SPinv ship blocked start st0 S := hinv.settled
        obtain ⟨hinv', hpot'⟩ := expandNode_spec hcore0 hgu hud hee0 hsp0
          hinv.goal_not hgoalu
        apply ih _ (S ∪ {m.2.2}) hinv'
        have hlen0 : st.heap.length = rest.length + 1 := length_of_popMin hpop
        have hcap0 : capSum ship st0 = capSum ship st := rfl
        have : st0.heap.length = rest.length := rfl
        omega

end RelaxProof

/-- Full functional specification of `_cached_a_star`: for distinct start and
goal it returns the empty path exactly when the goal is unreachable through
open, unblocked cells, and otherwise an admissible path of minimal length. -/
theorem cached_a_star_spec (ship : Ship) (blocked : List Pos) (start goal : Pos)
    (hne : goal ≠ start) :
    (cached_a_star ship blocked start goal = [] ↔
      ¬ ReachesGoal ship blocked start goal) ∧
    (cached_a_star ship blocked start goal ≠ [] →
      Seg ship blocked start (cached_a_star ship blocked start goal) goal ∧
      HasDist ship blocked start goal
        (cached_a_star ship blocked start goal).length) := by
  set init : AStarState :=
    { heap := [(heuristic start goal, 0, start)]
      gScore := [(start, 0)]
      cameFrom := []
      counter := 1 } with hinit
  have hlook : ∀ v : Pos, alookup init.gScore v =
      if start = v then some 0 else none := fun v => rfl
  have hinv : AInv ship blocked goal start init ∅ := by
    refine ⟨⟨?_, ?_, ?_, ?_, ?_, ?_, ?_⟩, ?_, ?_, ?_⟩
    · rw [hlook, if_pos rfl]
    · intro v n hv
      rw [hlook] at hv
      by_cases hsv : start = v
      · subst hsv
        rw [if_pos rfl] at hv
        cases hv
        exact ⟨[], Seg.nil, rfl⟩
      · rw [if_neg hsv] at hv
        cases hv
    · intro v n hv
      rw [hlook] at hv
      by_cases hsv : start = v
      · rw [if_pos hsv] at hv
        cases hv
        omega
      · rw [if_neg hsv] at hv
        cases hv
    · intro e he
      rcases List.mem_singleton.mp he with rfl
      refine ⟨0, by rw [hlook, if_pos rfl], ?_⟩
      show 0 + heuristic start goal ≤ heuristic start goal
      omega
    · intro v p hp
      cases hp
    · intro v n hv hvne
      rw [hlook] at hv
      by_cases hsv : start = v
      · exact absurd hsv.symm hvne
      · rw [if_neg hsv] at hv
        cases hv
    · rfl
    · exact Set.not_mem_empty goal
    · intro v hv
      exact absurd hv (Set.not_mem_empty v)
    · intro v n hv hd hvS
      rw [hlook] at hv
      by_cases hsv : start = v
      · subst hsv
        rw [if_pos rfl] at hv
        cases hv
        refine ⟨(heuristic start goal, 0, start), List.mem_singleton.mpr rfl,
          rfl, ?_⟩
        omega
      · rw [if_neg hsv] at hv
        cases hv
  have hcapsum : capSum ship init ≤
      ship.dimension * ship.dimension * (distBound ship + 2) := by
    have hbound : ∀ p ∈ (allPosList ship).toFinset,
        capOf ship init p ≤ distBound ship + 2 := by
      intro p _
      unfold capOf
      cases h : alookup init.gScore p with
      | some n =>
        rw [Option.getD_some]
        rw [hlook] at h
        by_cases hsv : start = p
        · rw [if_pos hsv] at h
          cases h
          omega
        · rw [if_neg hsv] at h
          cases h
      | none =>
        rw [Option.getD_none]
    have hsum := Finset.sum_le_card_nsmul _ _ _ hbound
    have hcard : ((allPosList ship).toFinset).card ≤
        ship.dimension * ship.dimension := by
      have h1 := (allPosList ship).toFinset_card_le
      have h2 := length_allPosList ship
      omega
    unfold capSum
    calc ∑ p ∈ (allPosList ship).toFinset, capOf ship init p ≤
        ((allPosList ship).toFinset).card * (distBound ship + 2) := by
          simpa [smul_eq_mul] using hsum
      _ ≤ ship.dimension * ship.dimension * (distBound ship + 2) :=
          Nat.mul_le_mul_right _ hcard
  have hfuel : init.heap.length + capSum ship init < aStarFuel ship := by
    have hlen : init.heap.length = 1 := rfl
    unfold aStarFuel
    unfold distBound at hcapsum
    omega
  have hspec := aStarLoop_spec hne (aStarFuel ship) init ∅ hinv hfuel
  unfold cached_a_star
  rcases hspec with ⟨hempty, hunreach⟩ | ⟨hseg, hdist, hnonempty⟩
  · constructor
    · rw [hempty]
      exact ⟨fun _ => hunreach, fun _ => rfl⟩
    · intro hneq
      exact absurd hempty hneq
  · constructor
    · constructor
      · intro h
        exact absurd h hnonempty
      · intro h
        exfalso
        obtain ⟨d, hd⟩ := @hasDist_exists ship blocked start goal ⟨_, hseg⟩
        exact h ⟨_, hseg⟩
    · intro _
      exact ⟨hseg, hdist⟩

/-- **Claim C4.** For every ship, blocked set, start and distinct goal, the
cached A* search returns a sequence of admissible cells (each entered through
an in-bounds, open, unblocked step) running from the step after the start to
the goal, of minimal length among all such paths; and it returns `[]` exactly
when no such path exists. -/
theorem claim_C4_cached_a_star (ship : Ship) (blocked : List Pos)
    (start goal : Pos) (hne : goal ≠ start) :
    (cached_a_star ship blocked start goal = [] ↔
      ¬ ReachesGoal ship blocked start goal) ∧
    (ReachesGoal ship blocked start goal →
      Seg ship blocked start (cached_a_star ship blocked start goal) goal ∧
      ∀ l, Seg ship blocked start l goal →
        (cached_a_star ship blocked start goal).length ≤ l.length) := by
  obtain ⟨hiff, hpath⟩ := cached_a_star_spec ship blocked start goal hne
  refine ⟨hiff, ?_⟩
  intro hreach
  have hneq : cached_a_star ship blocked start goal ≠ [] := by
    intro h
    exact (hiff.mp h) hreach
  obtain ⟨hseg, hdist⟩ := hpath hneq
  exact ⟨hseg, fun l hl => hdist.2 l.length ⟨l, hl, rfl⟩⟩

theorem claim_C4_cached_a_star_witness :
    (cached_a_star shipW [] ((0 : ℤ), (0 : ℤ)) ((0 : ℤ), (1 : ℤ)) = [] ↔
      ¬ ReachesGoal shipW [] ((0 : ℤ), (0 : ℤ)) ((0 : ℤ), (1 : ℤ))) ∧
    (ReachesGoal shipW [] ((0 : ℤ), (0 : ℤ)) ((0 : ℤ), (1 : ℤ)) →
      Seg shipW [] ((0 : ℤ), (0 : ℤ))
        (cached_a_star shipW [] ((0 : ℤ), (0 : ℤ)) ((0 : ℤ), (1 : ℤ)))
        ((0 : ℤ), (1 : ℤ)) ∧
      ∀ l, Seg shipW [] ((0 : ℤ), (0 : ℤ)) l ((0 : ℤ), (1 : ℤ)) →
        (cached_a_star shipW [] ((0 : ℤ), (0 : ℤ)) ((0 : ℤ), (1 : ℤ))).length ≤
          l.length) :=
  claim_C4_cached_a_star shipW [] ((0 : ℤ), (0 : ℤ)) ((0 : ℤ), (1 : ℤ)) (by decide)

/-! ## The deterministic planners (`plan_path_bot2`, `plan_path_bot3`) -/

/-- `BotController.a_star`: the wrapper converts cells to coordinates for the
cache and back; in the embedding both sides are positions already. -/
def a_star (env : Env) (start goal : Pos) (blocked : List Pos) : List Pos :=
  cached_a_star env.ship blocked start goal

/-- `BotController.plan_path_bot2`: block every currently burning cell. -/
def plan_path_bot2 (env : Env) (botPos : Pos) : List Pos :=
  a_star env botPos env.buttonPos (env.ship.get_on_fire_cells)

/-- The strict blocking set of `plan_path_bot3`: burning cells plus their
open neighbors. -/
def blockedStrict (env : Env) : List Pos :=
  env.ship.get_on_fire_cells ++
    env.ship.get_on_fire_cells.flatMap (fun c =>
      (env.ship.neighborsPos c).filter (fun n => (env.ship.cellAt n).isOpen))

/-- `BotController.plan_path_bot3`: strict search first, falling back to
policy 2's blocking set when it finds no path. -/
def plan_path_bot3 (env : Env) (botPos : Pos) : List Pos :=
  let path := a_star env botPos env.buttonPos (blockedStrict env)
  if path = [] then a_star env botPos env.buttonPos (env.ship.get_on_fire_cells)
  else path

/-- The concrete grid refuting claim C3 as stated: top row open with the bot
at `(0,0)` and the button at `(0,2)`; the burning cell `(2,2)` has no open
neighbors, so the strict search succeeds yet returns exactly policy 2's
result. -/
def envC3 : Env :=
  ⟨⟨3, [[⟨true, false⟩, ⟨true, false⟩, ⟨true, false⟩],
        [⟨false, false⟩, ⟨false, false⟩, ⟨false, false⟩],
        [⟨false, false⟩, ⟨false, false⟩, ⟨true, true⟩]]⟩,
   1, ((0 : ℤ), (2 : ℤ)), ((2 : ℤ), (2 : ℤ))⟩

/-- **Claim C3, counterexample.** The strict search finds a path, yet policy 3
returns exactly policy 2's result — refuting "returns policy 2's result when
and only when the stricter search finds no path". A second refutation: with
the bot already on the button, a (trivial) path avoiding the burning cells
exists, yet policy 3 returns the empty path. -/
theorem claim_C3_counterexample :
    a_star envC3 ((0 : ℤ), (0 : ℤ)) envC3.buttonPos (blockedStrict envC3) ≠ [] ∧
    plan_path_bot3 envC3 ((0 : ℤ), (0 : ℤ)) =
      plan_path_bot2 envC3 ((0 : ℤ), (0 : ℤ)) ∧
    plan_path_bot3 envC3 ((0 : ℤ), (2 : ℤ)) = [] := by
  refine ⟨by decide, by decide, by decide⟩

/-- **Claim C3, amended.** Policy 3 searches with the strict blocking set
(burning cells and their open neighbors); when that search is empty it
returns policy 2's result, and otherwise it returns the strict path (which
may coincide with policy 2's result). Whenever the agent is not already at
the button and a path avoiding just the burning cells exists, policy 3
returns a non-empty path. -/
theorem claim_C3_bot3_fallback (env : Env) (botPos : Pos)
    (hne : env.buttonPos ≠ botPos) :
    (a_star env botPos env.buttonPos (blockedStrict env) = [] →
      plan_path_bot3 env botPos = plan_path_bot2 env botPos) ∧
    (a_star env botPos env.buttonPos (blockedStrict env) ≠ [] →
      plan_path_bot3 env botPos =
        a_star env botPos env.buttonPos (blockedStrict env)) ∧
    (ReachesGoal env.ship (env.ship.get_on_fire_cells) botPos env.buttonPos →
      plan_path_bot3 env botPos ≠ []) := by
  refine ⟨?_, ?_, ?_⟩
  · intro hempty
    unfold plan_path_bot3 plan_path_bot2
    rw [if_pos hempty]
  · intro hnonempty
    unfold plan_path_bot3
    simp only [if_neg hnonempty]
  · intro hreach
    unfold plan_path_bot3
    by_cases hstrict : a_star env botPos env.buttonPos (blockedStrict env) = []
    · rw [if_pos hstrict]
      unfold a_star
      intro h
      exact (cached_a_star_spec env.ship (env.ship.get_on_fire_cells) botPos
        env.buttonPos hne).1.mp h hreach
    · rw [if_neg hstrict]
      exact hstrict

theorem claim_C3_bot3_fallback_witness :
    (a_star envC3 ((0 : ℤ), (0 : ℤ)) envC3.buttonPos (blockedStrict envC3) = [] →
      plan_path_bot3 envC3 ((0 : ℤ), (0 : ℤ)) =
        plan_path_bot2 envC3 ((0 : ℤ), (0 : ℤ))) ∧
    (a_star envC3 ((0 : ℤ), (0 : ℤ)) envC3.buttonPos (blockedStrict envC3) ≠ [] →
      plan_path_bot3 envC3 ((0 : ℤ), (0 : ℤ)) =
        a_star envC3 ((0 : ℤ), (0 : ℤ)) envC3.buttonPos (blockedStrict envC3)) ∧
    (ReachesGoal envC3.ship (envC3.ship.get_on_fire_cells) ((0 : ℤ), (0 : ℤ))
        envC3.buttonPos →
      plan_path_bot3 envC3 ((0 : ℤ), (0 : ℤ)) ≠ []) :=
  claim_C3_bot3_fallback envC3 ((0 : ℤ), (0 : ℤ)) (by decide)

/-! ## The risk-aware planner (`plan_path_bot5`) -/

/-- Strict order on forecast values, `none` standing for `float('inf')`. -/
def fLt : Option ℕ → Option ℕ → Bool
  | some a, some b => decide (a < b)
  | some _, none => true
  | none, _ => false

/-- The `arrival_time >= fire_arrival` cutoff test; a comparison with
`float('inf')` is always false. -/
def geOpt (a : ℕ) : Option ℕ → Bool
  | none => false
  | some m => decide (m ≤ a)

/-- The tuple order `heapq` compares the `(f, (row, col))` entries of
`plan_path_bot5` with: `f` first (`inf` greatest), then the position
lexicographically. Entries with equal full key are identical tuples, so the
popped value is determined. -/
def bot5Le (a b : Option ℕ × Pos) : Bool :=
  fLt a.1 b.1 ||
    (a.1 == b.1 &&
      (decide (a.2.1 < b.2.1) ||
        (decide (a.2.1 = b.2.1) && decide (a.2.2 ≤ b.2.2))))

/-- Pop the heap entry with the least `(f, position)` key. -/
def popMin5 : List (Option ℕ × Pos) → Option ((Option ℕ × Pos) × List (Option ℕ × Pos))
  | [] => none
  | e :: es =>
    match popMin5 es with
    | none => some (e, [])
    | some (m, rest) => if bot5Le e m then some (e, es) else some (m, e :: rest)

/-- The mutable state of `plan_path_bot5`: heap, `g_score`, `came_from` and
the global `arrival_time` counter (`f_score` is written but never read, so it
is not part of the state). -/
structure Bot5State where
  heap : List (Option ℕ × Pos)
  gScore : List (Pos × ℕ)
  cameFrom : List (Pos × Pos)
  arrival : ℕ

/-- The neighbor offsets of `plan_path_bot5` in its own `dx`/`dy` order:
`(-1,0), (0,1), (1,0), (0,-1)`. -/
def bot5Neighbors (p : Pos) : List Pos :=
  [(p.1 - 1, p.2), (p.1, p.2 + 1), (p.1 + 1, p.2), (p.1, p.2 - 1)]

/-- One neighbor examination of `plan_path_bot5`: bounds check, then the
open / not-on-fire / zero-burning-neighbors filter, then `arrival_time += 1`,
then the hard cutoff `arrival_time >= fire_arrival` against the **global**
counter, then the `g_score` improvement test; a successful relaxation pushes
`(tentative_g + heuristic + (fire_arrival - arrival_time), neighbor)`. -/
def bot5Examine (env : Env) (fire_time : List (List (Option ℕ))) (goal : Pos)
    (current : Pos) (st : Bot5State) (nb : Pos) : Bot5State :=
  if env.ship.inGrid nb then
    let cell := env.ship.cellAt nb
    if cell.isOpen && !cell.onFire && env.ship.count_burning_neighbors nb == 0 then
      let tentative := (alookup st.gScore current).getD 0 + 1
      let arrival := st.arrival + 1
      let fire_arrival := matGet fire_time nb
      if geOpt arrival fire_arrival then
        ⟨st.heap, st.gScore, st.cameFrom, arrival⟩
      else
        match alookup st.gScore nb with
        | some gw =>
          if tentative < gw then
            ⟨(fire_arrival.map (fun v => tentative + heuristic nb goal + (v - arrival)),
                nb) :: st.heap,
              (nb, tentative) :: st.gScore, (nb, current) :: st.cameFrom, arrival⟩
          else ⟨st.heap, st.gScore, st.cameFrom, arrival⟩
        | none =>
          ⟨(fire_arrival.map (fun v => tentative + heuristic nb goal + (v - arrival)),
              nb) :: st.heap,
            (nb, tentative) :: st.gScore, (nb, current) :: st.cameFrom, arrival⟩
    else st
  else st

/-- The main loop of `plan_path_bot5`: pop the least entry, stop with the
reconstructed path on the goal (no leading-`start` trim — `start` never
enters `came_from`), otherwise examine the four neighbors in order. -/
def bot5Loop (env : Env) (fire_time : List (List (Option ℕ))) (goal : Pos) :
    ℕ → Bot5State → List Pos
  | 0, _ => []
  | fuel + 1, st =>
    match popMin5 st.heap with
    | none => []
    | some ((_, current), rest) =>
      if current = goal then
        (reconstructLoop st.cameFrom (fuel + 1) current []).reverse
      else
        bot5Loop env fire_time goal fuel
          ((bot5Neighbors current).foldl (bot5Examine env fire_time goal current)
            ⟨rest, st.gScore, st.cameFrom, st.arrival⟩)

/-- `BotController.plan_path_bot5`: seed the heap with `(0, start)`,
`g_score = {start: 0}`, forecast the fire from the initial fire cell, and run
the loop. The initial fire cell is an `Environment` attribute missing from
`src/`; the spec's state description supplies it as `initialFirePos`. -/
def plan_path_bot5 (env : Env) (botPos : Pos) (fuel : ℕ) : List Pos :=
  let fire_time := predict_fire_spread_risk env.ship [env.initialFirePos]
  bot5Loop env fire_time env.buttonPos fuel
    ⟨[(some 0, botPos)], [(botPos, 0)], [], 0⟩

/-- Modelled from the spec: the same search with the hard cutoff and the
`(fire_arrival - ·)` margin evaluated against the edge's own arrival budget
`tentative_g = g + 1` instead of a globally accumulating counter. -/
def bot5ExamineBudget (env : Env) (fire_time : List (List (Option ℕ)))
    (goal : Pos) (current : Pos) (st : Bot5State) (nb : Pos) : Bot5State :=
  if env.ship.inGrid nb then
    let cell := env.ship.cellAt nb
    if cell.isOpen && !cell.onFire && env.ship.count_burning_neighbors nb == 0 then
      let tentative := (alookup st.gScore current).getD 0 + 1
      let fire_arrival := matGet fire_time nb
      if geOpt tentative fire_arrival then st
      else
        match alookup st.gScore nb with
        | some gw =>
          if tentative < gw then
            ⟨(fire_arrival.map (fun v => tentative + heuristic nb goal + (v - tentative)),
                nb) :: st.heap,
              (nb, tentative) :: st.gScore, (nb, current) :: st.cameFrom, st.arrival⟩
          else st
        | none =>
          ⟨(fire_arrival.map (fun v => tentative + heuristic nb goal + (v - tentative)),
              nb) :: st.heap,
            (nb, tentative) :: st.gScore, (nb, current) :: st.cameFrom, st.arrival⟩
    else st
  else st

/-- Modelled from the spec: the loop of the per-edge-budget variant. -/
def bot5LoopBudget (env : Env) (fire_time : List (List (Option ℕ))) (goal : Pos) :
    ℕ → Bot5State → List Pos
  | 0, _ => []
  | fuel + 1, st =>
    match popMin5 st.heap with
    | none => []
    | some ((_, current), rest) =>
      if current = goal then
        (reconstructLoop st.cameFrom (fuel + 1) current []).reverse
      else
        bot5LoopBudget env fire_time goal fuel
          ((bot5Neighbors current).foldl (bot5ExamineBudget env fire_time goal current)
            ⟨rest, st.gScore, st.cameFrom, st.arrival⟩)

/-- Modelled from the spec: `plan_path_bot5` with the per-edge budget. -/
def planPathBot5Budget (env : Env) (botPos : Pos) (fuel : ℕ) : List Pos :=
  let fire_time := predict_fire_spread_risk env.ship [env.initialFirePos]
  bot5LoopBudget env fire_time env.buttonPos fuel
    ⟨[(some 0, botPos)], [(botPos, 0)], [], 0⟩

/-- The failing grid for claim C2: a 5×5 ship whose top row is an open
corridor burning at `(0,0)`, with a single open side cell `(1,1)`; the bot
starts at `(0,1)`, the button is at `(0,4)`. -/
def shipC2 : Ship :=
  ⟨5, [[⟨true, true⟩, ⟨true, false⟩, ⟨true, false⟩, ⟨true, false⟩, ⟨true, false⟩],
       [⟨false, false⟩, ⟨true, false⟩, ⟨false, false⟩, ⟨false, false⟩, ⟨false, false⟩],
       [⟨false, false⟩, ⟨false, false⟩, ⟨false, false⟩, ⟨false, false⟩, ⟨false, false⟩],
       [⟨false, false⟩, ⟨false, false⟩, ⟨false, false⟩, ⟨false, false⟩, ⟨false, false⟩],
       [⟨false, false⟩, ⟨false, false⟩, ⟨false, false⟩, ⟨false, false⟩, ⟨false, false⟩]]⟩

def envC2 : Env := ⟨shipC2, 1, ((0 : ℤ), (4 : ℤ)), ((0 : ℤ), (0 : ℤ))⟩

/-- **Claim C2.** The claim says the hard cutoff for an edge into a neighbor
at path-length-so-far `g+1` is evaluated against that edge's own budget
`g+1`, not a globally accumulating counter. The code increments one
`arrival_time` counter across **all** edge examinations of the search, making
the cutoff strictly tighter than specified: on `envC2` the corridor
`(0,2), (0,3), (0,4)` satisfies the spec's budget everywhere (forecast
arrivals `2, 3, 4` against budgets `1, 2, 3`) and the per-edge-budget variant
returns it, yet `plan_path_bot5` returns no path — the examination of the
side cell `(1,1)` has already pushed the global counter past `(0,3)`'s
forecast. -/
theorem claim_C2_arrival_budget_bug :
    plan_path_bot5 envC2 ((0 : ℤ), (1 : ℤ)) 100 = [] ∧
    planPathBot5Budget envC2 ((0 : ℤ), (1 : ℤ)) 100 =
      [((0 : ℤ), (2 : ℤ)), ((0 : ℤ), (3 : ℤ)), ((0 : ℤ), (4 : ℤ))] ∧
    matGet (predict_fire_spread_risk shipC2 [((0 : ℤ), (0 : ℤ))])
      ((0 : ℤ), (2 : ℤ)) = some 2 ∧
    matGet (predict_fire_spread_risk shipC2 [((0 : ℤ), (0 : ℤ))])
      ((0 : ℤ), (3 : ℤ)) = some 3 ∧
    matGet (predict_fire_spread_risk shipC2 [((0 : ℤ), (0 : ℤ))])
      ((0 : ℤ), (4 : ℤ)) = some 4 := by
  refine ⟨by decide, by decide, by decide, by decide, by decide⟩

/-! ## The decision layer (`get_next_move` and the random fallback) -/

/-- `BotController.get_direction_from_positions`: compare rows, then
columns; `none` when the two positions coincide. -/
def get_direction_from_positions (current next_cell : Pos) : Option String :=
  if next_cell.1 < current.1 then some "up"
  else if current.1 < next_cell.1 then some "down"
  else if next_cell.2 < current.2 then some "left"
  else if current.2 < next_cell.2 then some "right"
  else none

/-- `Cell.get_open_neighbors` from `cell.py`: neighbors that are open. -/
def get_open_neighbors (s : Ship) (p : Pos) : List Pos :=
  (s.neighborsPos p).filter (fun n => (s.cellAt n).isOpen)

/-- `BotController.get_random_valid_move`: build the open-neighbor move list
and pick one uniformly at random, `none` when the list is empty.
`random.choice` is modelled by the index `choice`, reduced modulo the list
length (every index below the length selects the corresponding entry). -/
def get_random_valid_move (env : Env) (botPos : Pos) (choice : ℕ) :
    Option String :=
  match get_open_neighbors env.ship botPos with
  | [] => none
  | n :: rest =>
    get_direction_from_positions botPos
      ((n :: rest).get ⟨choice % (rest.length + 1), Nat.mod_lt _ (Nat.succ_pos _)⟩)

/-- The inner loop of `BotController.expectimax_decision` at one depth:
maximize the chance-ply value over the open neighbors, tracking the running
best value (`-math.inf` at the start) and candidate cell, threading the RNG
counter. -/
def bot4NeighborFold (env : Env) (fire : List Pos) (depth num_samples : ℕ)
    (rng : ℕ → Pos → ℚ) : List Pos → WithBot ℚ → Option Pos → ℕ →
    WithBot ℚ × Option Pos × ℕ
  | [], best, cand, ctr => (best, cand, ctr)
  | n :: rest, best, cand, ctr =>
    if (env.ship.cellAt n).isOpen then
      let r := expectimax env (n, fire, 1) depth false num_samples rng ctr
      if best < r.1 then
        bot4NeighborFold env fire depth num_samples rng rest r.1 (some n) r.2
      else
        bot4NeighborFold env fire depth num_samples rng rest best cand r.2
    else bot4NeighborFold env fire depth num_samples rng rest best cand ctr

/-- The iterative-deepening loop of `expectimax_decision`: keep the last
non-`None` candidate over the listed depths. -/
def bot4DepthLoop (env : Env) (botPos : Pos) (fire : List Pos)
    (num_samples : ℕ) (rng : ℕ → Pos → ℚ) : List ℕ → Option Pos → ℕ →
    Option Pos × ℕ
  | [], best, ctr => (best, ctr)
  | d :: rest, best, ctr =>
    let r := bot4NeighborFold env fire d num_samples rng
      (env.ship.neighborsPos botPos) ⊥ none ctr
    match r.2.1 with
    | none => bot4DepthLoop env botPos fire num_samples rng rest best r.2.2
    | some c => bot4DepthLoop env botPos fire num_samples rng rest (some c) r.2.2

/-- `BotController.expectimax_decision` with its default `max_depth = 5`,
`num_samples = 5`: deepen over depths `1..5` from the current state
`(bot, burning set, 0)`. -/
def expectimax_decision (env : Env) (botPos : Pos) (rng : ℕ → Pos → ℚ) :
    Option Pos :=
  (bot4DepthLoop env botPos (env.ship.get_on_fire_cells) 5 rng
    ((List.range 5).map (fun d => d + 1)) none 0).1

/-- `BotController.plan_path_bot4`: a one-element path around the expectimax
decision, `[]` when it yields no move. -/
def plan_path_bot4 (env : Env) (botPos : Pos) (rng : ℕ → Pos → ℚ) : List Pos :=
  match expectimax_decision env botPos rng with
  | none => []
  | some c => [c]

/-- `BotController.get_next_move`: strategy dispatch. Strategy 1 consumes the
precomputed path `path1` (`self.path`); for the direction returned only its
head matters. Strategy 5 skips a leading current-cell entry when a second
entry exists. Every branch falls back to `get_random_valid_move` on an empty
planner result. -/
def get_next_move (env : Env) (botPos : Pos) (strategy : ℕ)
    (path1 : List Pos) (fuel : ℕ) (rng : ℕ → Pos → ℚ) (choice : ℕ) :
    Option String :=
  if strategy = 0 then none
  else if strategy = 1 then
    match path1 with
    | [] => get_random_valid_move env botPos choice
    | next_cell :: _ => get_direction_from_positions botPos next_cell
  else if strategy = 2 then
    match plan_path_bot2 env botPos with
    | [] => get_random_valid_move env botPos choice
    | next_cell :: _ => get_direction_from_positions botPos next_cell
  else if strategy = 3 then
    match plan_path_bot3 env botPos with
    | [] => get_random_valid_move env botPos choice
    | next_cell :: _ => get_direction_from_positions botPos next_cell
  else if strategy = 4 then
    match plan_path_bot4 env botPos rng with
    | [] => get_random_valid_move env botPos choice
    | next_cell :: _ => get_direction_from_positions botPos next_cell
  else if strategy = 5 then
    match plan_path_bot5 env botPos fuel with
    | [] => get_random_valid_move env botPos choice
    | next_pos :: rest =>
      get_direction_from_positions botPos
        (if next_pos = botPos ∧ rest ≠ [] then rest.headD next_pos else next_pos)
  else none

/-- The planner each strategy consults in `get_next_move`. -/
def plannerResult (env : Env) (botPos : Pos) (strategy : ℕ)
    (path1 : List Pos) (fuel : ℕ) (rng : ℕ → Pos → ℚ) : List Pos :=
  if strategy = 1 then path1
  else if strategy = 2 then plan_path_bot2 env botPos
  else if strategy = 3 then plan_path_bot3 env botPos
  else if strategy = 4 then plan_path_bot4 env botPos rng
  else if strategy = 5 then plan_path_bot5 env botPos fuel
  else []

theorem get_direction_neighbor_some {s : Ship} {p n : Pos}
    (h : n ∈ s.neighborsPos p) : get_direction_from_positions p n ≠ none := by
  unfold Ship.neighborsPos at h
  have h4 := List.mem_filter.mp h
  have h5 : n = (p.1 - 1, p.2) ∨ n = (p.1 + 1, p.2) ∨ n = (p.1, p.2 - 1) ∨
      n = (p.1, p.2 + 1) := by simpa using h4.1
  unfold get_direction_from_positions
  rcases h5 with h1 | h1 | h1 | h1 <;>
    (rw [h1]; split_ifs <;> simp_all)

theorem mem_open_neighbors {s : Ship} {p n : Pos}
    (h : n ∈ get_open_neighbors s p) : n ∈ s.neighborsPos p := by
  unfold get_open_neighbors at h
  exact (List.mem_filter.mp h).1

theorem grvm_none_iff (env : Env) (botPos : Pos) (choice : ℕ) :
    get_random_valid_move env botPos choice = none ↔
      get_open_neighbors env.ship botPos = [] := by
  cases hnb : get_open_neighbors env.ship botPos with
  | nil => simp [get_random_valid_move, hnb]
  | cons n rest =>
    simp only [get_random_valid_move, hnb]
    constructor
    · intro hcontra
      have hm : (n :: rest).get
          ⟨choice % (rest.length + 1), Nat.mod_lt _ (Nat.succ_pos _)⟩ ∈
            get_open_neighbors env.ship botPos := by
        rw [hnb]; exact List.get_mem _ _ _
      exact ((get_direction_neighbor_some (mem_open_neighbors hm)) hcontra).elim
    · intro hcontra
      cases hcontra

theorem grvm_uniform (env : Env) (botPos : Pos) (i : ℕ)
    (h : i < (get_open_neighbors env.ship botPos).length) :
    get_random_valid_move env botPos i =
      get_direction_from_positions botPos
        ((get_open_neighbors env.ship botPos).getD i botPos) := by
  cases hnb : get_open_neighbors env.ship botPos with
  | nil => rw [hnb] at h; cases h
  | cons n rest =>
    have h' : i < (n :: rest).length := by rw [hnb] at h; exact h
    have hmod : i % (rest.length + 1) = i :=
      Nat.mod_eq_of_lt (by simpa using h')
    simp only [get_random_valid_move, hnb]
    congr 1
    have hfin : (⟨i % (rest.length + 1), Nat.mod_lt _ (Nat.succ_pos _)⟩ :
        Fin (rest.length + 1)) = ⟨i, by simpa using h'⟩ := Fin.ext hmod
    rw [hfin, List.get_eq_getElem, List.getD_eq_getElem _ _ h']

/-- **Claim C7.** For every strategy 1–5 whose planner finds no path,
`get_next_move` returns exactly the random fallback; the fallback is `none`
precisely when the agent has zero open neighbors, and otherwise every open
neighbor's direction is selectable (index `i` picks the `i`-th open
neighbor), so the uniform index draw is uniform over the open-neighbor
moves. All functions involved are total. -/
theorem claim_C7_no_path_fallback (env : Env) (botPos : Pos) (strategy : ℕ)
    (path1 : List Pos) (fuel : ℕ) (rng : ℕ → Pos → ℚ) (choice : ℕ)
    (hs : 1 ≤ strategy ∧ strategy ≤ 5)
    (hplanner : plannerResult env botPos strategy path1 fuel rng = []) :
    get_next_move env botPos strategy path1 fuel rng choice =
      get_random_valid_move env botPos choice ∧
    (get_random_valid_move env botPos choice = none ↔
      get_open_neighbors env.ship botPos = []) ∧
    (∀ i, i < (get_open_neighbors env.ship botPos).length →
      get_random_valid_move env botPos i =
        get_direction_from_positions botPos
          ((get_open_neighbors env.ship botPos).getD i botPos)) := by
  refine ⟨?_, grvm_none_iff env botPos choice, grvm_uniform env botPos⟩
  obtain ⟨hs1, hs5⟩ := hs
  interval_cases strategy
  all_goals norm_num [plannerResult] at hplanner
  all_goals norm_num [get_next_move]
  all_goals rw [hplanner]

theorem claim_C7_no_path_fallback_witness :
    (get_next_move envC3 ((0 : ℤ), (0 : ℤ)) 1 [] 0 (fun _ _ => 0) 0 =
      get_random_valid_move envC3 ((0 : ℤ), (0 : ℤ)) 0 ∧
    (get_random_valid_move envC3 ((0 : ℤ), (0 : ℤ)) 0 = none ↔
      get_open_neighbors envC3.ship ((0 : ℤ), (0 : ℤ)) = []) ∧
    (∀ i, i < (get_open_neighbors envC3.ship ((0 : ℤ), (0 : ℤ))).length →
      get_random_valid_move envC3 ((0 : ℤ), (0 : ℤ)) i =
        get_direction_from_positions ((0 : ℤ), (0 : ℤ))
          ((get_open_neighbors envC3.ship ((0 : ℤ), (0 : ℤ))).getD i
            ((0 : ℤ), (0 : ℤ))))) :=
  claim_C7_no_path_fallback envC3 ((0 : ℤ), (0 : ℤ)) 1 [] 0 (fun _ _ => 0) 0
    (by decide) rfl

end FireParadise
